import Mathlib

/-!
# go-lru: a shallow embedding of `cache.go`

The cache of `cache.go` is an index `itemsMap : map[string]*list.Element` over a
`container/list` recency list `itemsList`, most recent element first.

Modelling decisions.

* A `*list.Element` is a pointer.  It is modelled by the serial number of its allocation
  (`Element.id`) together with the `Value` it was created with.  `cache.go` never assigns to
  `Element.Value` after `PushFront`, so every copy of an element agrees with the heap
  object.  The `list` back pointer of an element (`e.list == l`) is modelled by membership
  of its serial number in the list: `Remove` clears the pointer exactly when it unlinks
  the element, and there is only one list per cache.
* `interface{}` values are `Option α`; `none` is the `nil` interface.
* `time.Now().UnixNano()` is an explicit argument `now : Int` of the operations that read
  the clock; `time.Duration` is an `Int` count of nanoseconds.
* A run-time panic (nil pointer dereference) is the result `none`.
* The read/write lock, the janitor goroutine and the finalizer are not modelled: the
  operations are the sequential bodies of the methods.  `cache.GetPromote` and
  `cache.GetRead` are the two parts of `Get`, between which another holder of the read
  lock can run.
-/

namespace GoLru

/-! ## Time -/

/-- Two's-complement wrap of an integer into the `int64` range. -/
def wrapInt64 (x : Int) : Int := (x + 2 ^ 63) % 2 ^ 64 - 2 ^ 63

/-- The constant `time.Second`, in nanoseconds. -/
def Second : Int := 1000000000

/-- The constant `NoExpiration time.Duration = -1`. -/
def NoExpiration : Int := -1

/-- The constant `DefaultExpiration time.Duration = 0`. -/
def DefaultExpiration : Int := 0

/-! ## Entries -/

/-- The struct `item`: the cached object and its absolute expiration, in Unix nanoseconds. -/
structure item (α : Type) where
  Object : Option α
  Expiration : Int
deriving DecidableEq, Repr

/-- The method `item.Expired`: `i.Expiration < time.Now().UnixNano()`. -/
def item.Expired {α : Type} (i : item α) (now : Int) : Bool :=
  if i.Expiration < now then true else false

/-- A `list.Element`: the serial number of its allocation and its `Value`. -/
structure Element (α : Type) where
  id : Nat
  Value : item α
deriving DecidableEq, Repr

/-! ## The part of `container/list` that `cache.go` calls -/

/-- The method `List.Len`. -/
def list.Len {α : Type} (l : List (Element α)) : Nat := l.length

/-- The method `List.Front`: the first element, `none` (nil) on an empty list. -/
def list.Front {α : Type} (l : List (Element α)) : Option (Element α) := l.head?

/-- The method `List.Back`: the last element, `none` (nil) on an empty list. -/
def list.Back {α : Type} (l : List (Element α)) : Option (Element α) := l.getLast?

/-- The method `List.Remove(e)`: unlinks `e` if it is an element of the list, and does
nothing otherwise. -/
def list.Remove {α : Type} (l : List (Element α)) (e : Element α) : List (Element α) :=
  l.filter (fun x => x.id != e.id)

/-- The method `List.PushFront(v)`: allocates a new element (serial number `id`), links it
at the front and returns it.  The returned pointer is never nil. -/
def list.PushFront {α : Type} (l : List (Element α)) (id : Nat) (v : item α) :
    List (Element α) × Option (Element α) :=
  (⟨id, v⟩ :: l, some ⟨id, v⟩)

/-- The method `List.MoveToFront(e)`:
`if e.list != l || l.root.next == e { return }; l.move(e, &l.root)`. -/
def list.MoveToFront {α : Type} (l : List (Element α)) (e : Element α) : List (Element α) :=
  if !(l.any (fun x => x.id == e.id)) || (l.head?.map (fun x => x.id) == some e.id) then l
  else e :: l.filter (fun x => x.id != e.id)

/-! ## The index -/

/-- The map assignment `m[key] = v`. -/
def mapStore {α : Type} (m : List (String × Element α)) (key : String) (v : Element α) :
    List (String × Element α) :=
  (key, v) :: m.filter (fun kv => kv.1 != key)

/-- The builtin `delete(m, key)`. -/
def mapDelete {α : Type} (m : List (String × Element α)) (key : String) :
    List (String × Element α) :=
  m.filter (fun kv => kv.1 != key)

/-! ## The cache -/

/-- The struct `janitor`; its stop channel is not modelled. -/
structure janitor where
  interval : Int
deriving DecidableEq, Repr

/-- The struct `cache`.  `nextId` is the serial number of the next list element to be
allocated; it is not a field of the Go struct. -/
structure cache (α : Type) where
  itemsMap : List (String × Element α)
  itemsList : List (Element α)
  defaultExpiration : Int
  maxSize : Int
  janitor : GoLru.janitor
  nextId : Nat
deriving DecidableEq, Repr

/-- The method `cache.Set`.  The result is `none` on a panic (`Remove(nil)`), and
otherwise the new state with the returned `error` (`none` is the nil error). -/
def cache.Set {α : Type} (c : cache α) (key : String) (val : Option α)
    (expiration : Int) (now : Int) : Option (cache α × Option String) :=
  let expiration := if expiration = DefaultExpiration then c.defaultExpiration else expiration
  let exp : Int := if expiration > 0 then wrapInt64 (now + expiration) else 0
  let l1 :=
    match c.itemsMap.lookup key with
    | some oldVal => list.Remove c.itemsList oldVal
    | none => c.itemsList
  match list.PushFront l1 c.nextId { Object := val, Expiration := exp } with
  | (l2, none) =>
    some ({ c with itemsList := l2, nextId := c.nextId + 1 }, some "set a new element err!")
  | (l2, some iter) =>
    let m := mapStore c.itemsMap key iter
    if (list.Len l2 : Int) > c.maxSize then
      match list.Back l2 with
      | none => none
      | some e =>
        some ({ c with itemsMap := m, itemsList := list.Remove l2 e, nextId := c.nextId + 1 },
          none)
    else
      some ({ c with itemsMap := m, itemsList := l2, nextId := c.nextId + 1 }, none)

/-- The method `cache.Get`.  The result is `none` on a panic (`frontElem.Value` with
`frontElem == nil`), and otherwise the new state with the returned pair.  The type
assertion `val.(item)` always succeeds: only `item` values are ever pushed. -/
def cache.Get {α : Type} (c : cache α) (key : String) :
    Option (cache α × (Option α × Bool)) :=
  match c.itemsMap.lookup key with
  | some elem =>
    let l := list.MoveToFront c.itemsList elem
    match list.Front l with
    | none => none
    | some frontElem => some ({ c with itemsList := l }, (frontElem.Value.Object, true))
  | none => some (c, (none, false))

/-- The body of the range loop of `cache.DeleteAllExpiredItems` for the index entry
`kv = (k, v)`; the type assertion `v.Value.(item)` always succeeds. -/
def cache.sweepEntry {α : Type} (c : cache α) (now : Int) (kv : String × Element α) :
    cache α :=
  if kv.2.Value.Expired now then
    { c with itemsList := list.Remove c.itemsList kv.2, itemsMap := mapDelete c.itemsMap kv.1 }
  else c

/-- The method `cache.DeleteAllExpiredItems`.  The range loop visits every key of the
index once (the body deletes only the key being visited), in an order that Go leaves
unspecified; the model visits them in the order of the association list.  Every call of
`Expired` in one sweep is given the same clock reading `now`. -/
def cache.DeleteAllExpiredItems {α : Type} (c : cache α) (now : Int) : cache α :=
  c.itemsMap.foldl (fun c kv => c.sweepEntry now kv) c

/-- The function `NewCache`: an empty cache with the default TTL of 3600 seconds.  The
janitor goroutine it starts is not run by the model. -/
def NewCache (α : Type) (maxSize : Int) (d : Int) : cache α :=
  { itemsMap := []
    itemsList := []
    maxSize := maxSize
    defaultExpiration := 3600 * Second
    janitor := { interval := d }
    nextId := 0 }

/-! ## Sequences of calls -/

/-- One call on the cache. -/
inductive Op (α : Type) where
  | set (key : String) (val : Option α) (expiration : Int) (now : Int)
  | get (key : String)
  | sweep (now : Int)
deriving DecidableEq, Repr

/-- The state after one call; `none` when the call panics. -/
def step {α : Type} (c : cache α) : Op α → Option (cache α)
  | .set key val expiration now => (c.Set key val expiration now).map (fun r => r.1)
  | .get key => (c.Get key).map (fun r => r.1)
  | .sweep now => some (c.DeleteAllExpiredItems now)

/-- The state after a sequence of calls; `none` when one of them panics. -/
def run {α : Type} (c : cache α) : List (Op α) → Option (cache α)
  | [] => some c
  | op :: ops => (step c op).bind (fun c1 => run c1 ops)

/-- The expiration `exp` that `cache.Set` computes from its `expiration` argument. -/
def cache.expOf {α : Type} (c : cache α) (expiration : Int) (now : Int) : Int :=
  let expiration := if expiration = DefaultExpiration then c.defaultExpiration else expiration
  if expiration > 0 then wrapInt64 (now + expiration) else 0

/-- The element that `cache.Set` allocates with `PushFront`. -/
def cache.newElem {α : Type} (c : cache α) (val : Option α) (expiration : Int) (now : Int) :
    Element α :=
  ⟨c.nextId, { Object := val, Expiration := c.expOf expiration now }⟩

/-- The recency list of `cache.Set` just before its `PushFront`: the old element of the
key, if the index has one, is unlinked. -/
def cache.unlinked {α : Type} (c : cache α) (key : String) : List (Element α) :=
  match c.itemsMap.lookup key with
  | some oldVal => list.Remove c.itemsList oldVal
  | none => c.itemsList

/-- The arguments of one `Set` call, with the clock reading of the call. -/
structure SetCall (α : Type) where
  key : String
  val : Option α
  expiration : Int
  now : Int
deriving DecidableEq, Repr

/-- The call `Set(key, val, expiration)` at time `now`. -/
def SetCall.op {α : Type} (s : SetCall α) : Op α :=
  .set s.key s.val s.expiration s.now

/-- The state that a run of `Set` calls on new keys builds while the capacity is not
exceeded: every call links its new element at the front and records it in the index. -/
def pushAll {α : Type} (c : cache α) : List (SetCall α) → cache α
  | [] => c
  | s :: rest =>
    pushAll
      { c with
        itemsMap := (s.key, c.newElem s.val s.expiration s.now) :: c.itemsMap
        itemsList := c.newElem s.val s.expiration s.now :: c.itemsList
        nextId := c.nextId + 1 } rest

/-- The keys of the index. -/
def cache.indexKeys {α : Type} (c : cache α) : List String :=
  c.itemsMap.map (fun kv => kv.1)

/-- The keys of the index whose element is linked in the recency list. -/
def cache.orderKeys {α : Type} (c : cache α) : List String :=
  (c.itemsMap.filter (fun kv => c.itemsList.any (fun e => e.id == kv.2.id))).map
    (fun kv => kv.1)

/-- Well-formedness of a cache state: serial numbers of live and indexed elements are
already allocated, no element is linked twice, no key is indexed twice, the list is
within the capacity, no element is indexed under two keys, and an indexed element that is
linked is the list element of that serial number (the copies of one heap object agree). -/
structure Inv {α : Type} (c : cache α) : Prop where
  listFresh : ∀ e ∈ c.itemsList, e.id < c.nextId
  mapFresh : ∀ kv ∈ c.itemsMap, kv.2.id < c.nextId
  listNodup : (c.itemsList.map (fun e => e.id)).Nodup
  keysNodup : (c.itemsMap.map (fun kv => kv.1)).Nodup
  bound : (c.itemsList.length : Int) ≤ c.maxSize
  mapIds : ∀ kv ∈ c.itemsMap, ∀ kv2 ∈ c.itemsMap, kv.2.id = kv2.2.id → kv = kv2
  agree : ∀ kv ∈ c.itemsMap, ∀ x ∈ c.itemsList, x.id = kv.2.id → x = kv.2

/-- The part of the well-formedness that does not depend on the capacity, with the link
from the list to the index: every linked element is the index element of some key. -/
structure Shape {α : Type} (c : cache α) : Prop where
  listFresh : ∀ e ∈ c.itemsList, e.id < c.nextId
  mapFresh : ∀ kv ∈ c.itemsMap, kv.2.id < c.nextId
  listNodup : (c.itemsList.map (fun e => e.id)).Nodup
  keysNodup : (c.itemsMap.map (fun kv => kv.1)).Nodup
  mapIds : ∀ kv ∈ c.itemsMap, ∀ kv2 ∈ c.itemsMap, kv.2.id = kv2.2.id → kv = kv2
  agree : ∀ kv ∈ c.itemsMap, ∀ x ∈ c.itemsList, x.id = kv.2.id → x = kv.2
  linked : ∀ x ∈ c.itemsList, ∃ kv ∈ c.itemsMap, kv.2 = x

/-- The first statements of `cache.Get` (lines 71 to 73): the index lookup and, on a hit,
`MoveToFront`.  The result is the state and the flag `exist`. -/
def cache.GetPromote {α : Type} (c : cache α) (key : String) : cache α × Bool :=
  match c.itemsMap.lookup key with
  | some elem => ({ c with itemsList := list.MoveToFront c.itemsList elem }, true)
  | none => (c, false)

/-- The remaining statements of `cache.Get` (lines 74 to 83): on a hit, the read of
`Front().Value`; `none` is the panic on a nil front. -/
def cache.GetRead {α : Type} (c : cache α) (exist : Bool) : Option (Option α × Bool) :=
  if exist then
    match list.Front c.itemsList with
    | none => none
    | some frontElem => some (frontElem.Value.Object, true)
  else some (none, false)

/-! ## Lemmas on the list and the index -/

theorem list.mem_Remove {α : Type} (l : List (Element α)) (e x : Element α) :
    x ∈ list.Remove l e ↔ x ∈ l ∧ x.id ≠ e.id := by
  simp [list.Remove, List.mem_filter]

theorem list.Remove_length_le {α : Type} (l : List (Element α)) (e : Element α) :
    (list.Remove l e).length ≤ l.length :=
  List.length_filter_le _ _

theorem list.Remove_length_lt {α : Type} (l : List (Element α)) (e x : Element α)
    (hx : x ∈ l) (hid : x.id = e.id) : (list.Remove l e).length < l.length := by
  induction l with
  | nil => simp at hx
  | cons a t ih =>
    by_cases ha : a.id = e.id
    · have h1 : list.Remove (a :: t) e = list.Remove t e := by
        simp [list.Remove, ha]
      rw [h1]
      have := list.Remove_length_le t e
      simp only [List.length_cons]
      omega
    · have h1 : list.Remove (a :: t) e = a :: list.Remove t e := by
        simp [list.Remove, ha]
      rw [h1]
      rcases List.mem_cons.mp hx with rfl | hxt
      · exact absurd hid ha
      · have := ih hxt
        simp only [List.length_cons]
        omega

theorem list.Remove_of_not_mem {α : Type} (l : List (Element α)) (e : Element α)
    (h : ∀ x ∈ l, x.id ≠ e.id) : list.Remove l e = l := by
  unfold list.Remove
  rw [List.filter_eq_self]
  intro x hx
  simpa using h x hx

theorem list.Remove_length_of_nodup {α : Type} (l : List (Element α)) (e x : Element α)
    (hn : (l.map (fun e => e.id)).Nodup) (hx : x ∈ l) (hid : x.id = e.id) :
    (list.Remove l e).length + 1 = l.length := by
  induction l with
  | nil => simp at hx
  | cons a t ih =>
    rw [List.map_cons, List.nodup_cons] at hn
    by_cases ha : a.id = e.id
    · have h1 : list.Remove (a :: t) e = list.Remove t e := by
        simp [list.Remove, ha]
      rw [h1, list.Remove_of_not_mem]
      · simp
      · intro y hy hye
        exact hn.1 (List.mem_map.mpr ⟨y, hy, by rw [hye, ha]⟩)
    · have h1 : list.Remove (a :: t) e = a :: list.Remove t e := by
        simp [list.Remove, ha]
      rw [h1]
      rcases List.mem_cons.mp hx with rfl | hxt
      · exact absurd hid ha
      · have := ih hn.2 hxt
        simp only [List.length_cons]
        omega

theorem list.Remove_nodup {α : Type} (l : List (Element α)) (e : Element α)
    (hn : (l.map (fun e => e.id)).Nodup) : ((list.Remove l e).map (fun e => e.id)).Nodup :=
  hn.sublist (List.Sublist.map _ (List.filter_sublist _))

theorem lookup_mem {α : Type} (m : List (String × Element α)) (key : String) (v : Element α)
    (h : m.lookup key = some v) : (key, v) ∈ m := by
  induction m with
  | nil => simp at h
  | cons a t ih =>
    obtain ⟨k, w⟩ := a
    by_cases hk : key = k
    · subst hk
      simp [List.lookup] at h
      simp [h]
    · have hb : (key == k) = false := by simpa using hk
      simp only [List.lookup, hb] at h
      exact List.mem_cons_of_mem _ (ih h)

theorem lookup_of_mem {α : Type} (m : List (String × Element α)) (key : String) (v : Element α)
    (hn : (m.map (fun kv => kv.1)).Nodup) (h : (key, v) ∈ m) : m.lookup key = some v := by
  induction m with
  | nil => simp at h
  | cons a t ih =>
    obtain ⟨k, w⟩ := a
    rw [List.map_cons, List.nodup_cons] at hn
    rcases List.mem_cons.mp h with heq | ht
    · cases heq
      simp [List.lookup]
    · have hk : key ≠ k := by
        rintro rfl
        exact hn.1 (List.mem_map.mpr ⟨(key, v), ht, rfl⟩)
      have hb : (key == k) = false := by simpa using hk
      simp only [List.lookup, hb]
      exact ih hn.2 ht

theorem lookup_mapStore_self {α : Type} (m : List (String × Element α)) (key : String)
    (v : Element α) : (mapStore m key v).lookup key = some v := by
  simp [mapStore, List.lookup]

theorem lookup_filter_ne {α : Type} (m : List (String × Element α)) (key k : String)
    (h : k ≠ key) : (m.filter (fun kv => kv.1 != key)).lookup k = m.lookup k := by
  induction m with
  | nil => rfl
  | cons a t ih =>
    obtain ⟨k1, w⟩ := a
    by_cases h1 : k1 = key
    · subst h1
      have hb : (k == k1) = false := by simpa using h
      rw [List.filter_cons_of_neg (by simp), ih]
      simp [List.lookup, hb]
    · rw [List.filter_cons_of_pos (by simpa using h1)]
      by_cases h2 : k = k1
      · subst h2
        simp [List.lookup]
      · have hb : (k == k1) = false := by simpa using h2
        simp [List.lookup, hb, ih]

theorem lookup_filter_self {α : Type} (m : List (String × Element α)) (key : String) :
    (m.filter (fun kv => kv.1 != key)).lookup key = none := by
  induction m with
  | nil => rfl
  | cons a t ih =>
    obtain ⟨k1, w⟩ := a
    by_cases h1 : k1 = key
    · subst h1
      rw [List.filter_cons_of_neg (by simp), ih]
    · rw [List.filter_cons_of_pos (by simpa using h1)]
      have hb : (key == k1) = false := by
        simpa using (fun h => h1 h.symm)
      simp only [List.lookup, hb, ih]

/-! ## What `Set` computes -/

theorem Set_eq {α : Type} (c : cache α) (key : String) (val : Option α)
    (expiration now : Int) :
    c.Set key val expiration now =
      if ((c.unlinked key).length + 1 : Int) > c.maxSize then
        some ({ c with
                itemsMap := mapStore c.itemsMap key (c.newElem val expiration now)
                itemsList := list.Remove (c.newElem val expiration now :: c.unlinked key)
                  ((c.newElem val expiration now :: c.unlinked key).getLast
                    (List.cons_ne_nil _ _))
                nextId := c.nextId + 1 }, none)
      else
        some ({ c with
                itemsMap := mapStore c.itemsMap key (c.newElem val expiration now)
                itemsList := c.newElem val expiration now :: c.unlinked key
                nextId := c.nextId + 1 }, none) := by
  simp only [cache.Set, cache.newElem, cache.expOf, cache.unlinked, list.PushFront, list.Len,
    list.Back, List.length_cons, Nat.cast_add, Nat.cast_one,
    List.getLast?_eq_getLast _ (List.cons_ne_nil _ _)]

theorem unlinked_sub {α : Type} (c : cache α) (key : String) (x : Element α)
    (h : x ∈ c.unlinked key) : x ∈ c.itemsList := by
  unfold cache.unlinked at h
  split at h
  · exact ((list.mem_Remove _ _ _).mp h).1
  · exact h

theorem unlinked_length_le {α : Type} (c : cache α) (key : String) :
    (c.unlinked key).length ≤ c.itemsList.length := by
  unfold cache.unlinked
  split
  · exact list.Remove_length_le _ _
  · exact le_refl _

theorem unlinked_nodup {α : Type} (c : cache α) (key : String)
    (hn : (c.itemsList.map (fun e => e.id)).Nodup) :
    ((c.unlinked key).map (fun e => e.id)).Nodup := by
  unfold cache.unlinked
  split
  · exact list.Remove_nodup _ _ hn
  · exact hn

theorem mapStore_keys_nodup {α : Type} (m : List (String × Element α)) (key : String)
    (v : Element α) (hn : (m.map (fun kv => kv.1)).Nodup) :
    ((mapStore m key v).map (fun kv => kv.1)).Nodup := by
  unfold mapStore
  rw [List.map_cons, List.nodup_cons]
  refine ⟨?_, hn.sublist (List.Sublist.map _ (List.filter_sublist _))⟩
  intro h
  obtain ⟨kv, hkv, hk⟩ := List.mem_map.mp h
  have := (List.mem_filter.mp hkv).2
  simp [hk] at this

theorem mem_mapStore {α : Type} (m : List (String × Element α)) (key : String)
    (v : Element α) (kv : String × Element α) (h : kv ∈ mapStore m key v) :
    kv = (key, v) ∨ kv ∈ m := by
  unfold mapStore at h
  rcases List.mem_cons.mp h with h1 | h1
  · exact Or.inl h1
  · exact Or.inr (List.mem_filter.mp h1).1

/-- The state `Set` returns is well formed as soon as its list is a duplicate-free part of
the pushed list and within the capacity. -/
theorem Inv_of_Set_state {α : Type} (c : cache α) (hc : Inv c) (key : String)
    (val : Option α) (expiration now : Int) (l3 : List (Element α))
    (hsub : ∀ x ∈ l3, x ∈ c.newElem val expiration now :: c.unlinked key)
    (hnd : (l3.map (fun e => e.id)).Nodup) (hlen : (l3.length : Int) ≤ c.maxSize) :
    Inv { c with
          itemsMap := mapStore c.itemsMap key (c.newElem val expiration now)
          itemsList := l3
          nextId := c.nextId + 1 } := by
  have hnew : (c.newElem val expiration now).id = c.nextId := rfl
  refine ⟨?_, ?_, hnd, mapStore_keys_nodup _ _ _ hc.keysNodup, hlen, ?_, ?_⟩
  · intro e he
    rcases List.mem_cons.mp (hsub e he) with h1 | h1
    · subst h1
      simp [cache.newElem]
    · exact Nat.lt_succ_of_lt (hc.listFresh e (unlinked_sub c key e h1))
  · intro kv hkv
    rcases mem_mapStore _ _ _ _ hkv with h1 | h1
    · subst h1
      simp [cache.newElem]
    · exact Nat.lt_succ_of_lt (hc.mapFresh kv h1)
  · intro kv hkv kv2 hkv2 hid
    rcases mem_mapStore _ _ _ _ hkv with h1 | h1 <;>
      rcases mem_mapStore _ _ _ _ hkv2 with h2 | h2
    · rw [h1, h2]
    · have := hc.mapFresh kv2 h2
      rw [h1] at hid
      simp only [hnew] at hid
      omega
    · have := hc.mapFresh kv h1
      rw [h2] at hid
      simp only [hnew] at hid
      omega
    · exact hc.mapIds kv h1 kv2 h2 hid
  · intro kv hkv x hx hid
    rcases mem_mapStore _ _ _ _ hkv with h1 | h1 <;>
      rcases List.mem_cons.mp (hsub x hx) with h2 | h2
    · rw [h1, h2]
    · have := hc.listFresh x (unlinked_sub c key x h2)
      rw [h1] at hid
      simp only [hnew] at hid
      omega
    · have := hc.mapFresh kv h1
      rw [h2] at hid
      simp only [hnew] at hid
      omega
    · exact hc.agree kv h1 x (unlinked_sub c key x h2) hid

theorem pushed_nodup {α : Type} (c : cache α) (hc : Inv c) (key : String)
    (val : Option α) (expiration now : Int) :
    ((c.newElem val expiration now :: c.unlinked key).map (fun e => e.id)).Nodup := by
  rw [List.map_cons, List.nodup_cons]
  refine ⟨?_, unlinked_nodup c key hc.listNodup⟩
  intro h
  obtain ⟨x, hx, hid⟩ := List.mem_map.mp h
  have := hc.listFresh x (unlinked_sub c key x hx)
  simp [cache.newElem] at hid
  omega

theorem Set_inv {α : Type} (c : cache α) (hc : Inv c) (key : String) (val : Option α)
    (expiration now : Int) (r : cache α × Option String)
    (h : c.Set key val expiration now = some r) : Inv r.1 := by
  rw [Set_eq] at h
  have hU := unlinked_length_le c key
  have hb := hc.bound
  split at h
  · cases h
    refine Inv_of_Set_state c hc key val expiration now _ ?_ ?_ ?_
    · intro x hx
      exact ((list.mem_Remove _ _ _).mp hx).1
    · exact list.Remove_nodup _ _ (pushed_nodup c hc key val expiration now)
    · have := list.Remove_length_lt (c.newElem val expiration now :: c.unlinked key)
        ((c.newElem val expiration now :: c.unlinked key).getLast (List.cons_ne_nil _ _))
        _ (List.getLast_mem _) rfl
      simp only [List.length_cons] at this
      omega
  · rename_i hgt
    cases h
    refine Inv_of_Set_state c hc key val expiration now _ (fun x hx => hx)
      (pushed_nodup c hc key val expiration now) ?_
    simp only [List.length_cons, Nat.cast_add, Nat.cast_one]
    omega

/-! ## What `Get` computes -/

theorem MoveToFront_cases {α : Type} (l : List (Element α)) (e : Element α) :
    list.MoveToFront l e = l ∨
      ((∃ x ∈ l, x.id = e.id) ∧ list.MoveToFront l e = e :: list.Remove l e) := by
  unfold list.MoveToFront
  split
  · exact Or.inl rfl
  · rename_i hc
    refine Or.inr ⟨?_, rfl⟩
    simp only [Bool.or_eq_true, Bool.not_eq_true', not_or, Bool.not_eq_false] at hc
    obtain ⟨x, hx, hid⟩ := List.any_eq_true.mp hc.1
    exact ⟨x, hx, by simpa using hid⟩

theorem MoveToFront_inv {α : Type} (c : cache α) (hc : Inv c) (key : String)
    (e : Element α) (hmem : (key, e) ∈ c.itemsMap) :
    Inv { c with itemsList := list.MoveToFront c.itemsList e } := by
  have he : e.id < c.nextId := hc.mapFresh _ hmem
  rcases MoveToFront_cases c.itemsList e with h | ⟨⟨x, hx, hid⟩, h⟩
  · rw [h]
    exact hc
  · rw [h]
    refine ⟨?_, hc.mapFresh, ?_, hc.keysNodup, ?_, hc.mapIds, ?_⟩
    · intro y hy
      rcases List.mem_cons.mp hy with h1 | h1
      · subst h1
        exact he
      · exact hc.listFresh y ((list.mem_Remove _ _ _).mp h1).1
    · show ((e :: list.Remove c.itemsList e).map (fun e => e.id)).Nodup
      rw [List.map_cons, List.nodup_cons]
      refine ⟨?_, list.Remove_nodup _ _ hc.listNodup⟩
      intro hm
      obtain ⟨y, hy, hyid⟩ := List.mem_map.mp hm
      exact ((list.mem_Remove _ _ _).mp hy).2 hyid
    · have h1 := list.Remove_length_lt c.itemsList e x hx hid
      have h2 := hc.bound
      show (((e :: list.Remove c.itemsList e).length : Nat) : Int) ≤ c.maxSize
      simp only [List.length_cons, Nat.cast_add, Nat.cast_one]
      omega
    · intro kv hkv y hy hyid
      rcases List.mem_cons.mp hy with h1 | h1
      · rw [h1] at hyid ⊢
        have := hc.mapIds (key, e) hmem kv hkv hyid
        rw [← this]
      · exact hc.agree kv hkv y ((list.mem_Remove _ _ _).mp h1).1 hyid

theorem Get_inv {α : Type} (c : cache α) (hc : Inv c) (key : String)
    (r : cache α × (Option α × Bool)) (h : c.Get key = some r) : Inv r.1 := by
  unfold cache.Get at h
  split at h
  · rename_i elem hlk
    simp only at h
    split at h
    · cases h
    · cases h
      exact MoveToFront_inv c hc key elem (lookup_mem _ _ _ hlk)
  · cases h
    exact hc

/-! ## What the sweep computes -/

theorem sweepEntry_inv {α : Type} (c : cache α) (hc : Inv c) (now : Int)
    (kv : String × Element α) : Inv (c.sweepEntry now kv) := by
  unfold cache.sweepEntry
  split
  · refine ⟨?_, ?_, list.Remove_nodup _ _ hc.listNodup, ?_, ?_, ?_, ?_⟩
    · intro e he
      exact hc.listFresh e ((list.mem_Remove _ _ _).mp he).1
    · intro x hx
      exact hc.mapFresh x (List.mem_filter.mp hx).1
    · exact hc.keysNodup.sublist (List.Sublist.map _ (List.filter_sublist _))
    · have h1 := list.Remove_length_le c.itemsList kv.2
      have h2 := hc.bound
      show (((list.Remove c.itemsList kv.2).length : Nat) : Int) ≤ c.maxSize
      omega
    · intro a ha b hb hid
      exact hc.mapIds a (List.mem_filter.mp ha).1 b (List.mem_filter.mp hb).1 hid
    · intro a ha x hx hid
      exact hc.agree a (List.mem_filter.mp ha).1 x ((list.mem_Remove _ _ _).mp hx).1 hid
  · exact hc

theorem sweepFold_inv {α : Type} (now : Int) (es : List (String × Element α)) (c : cache α)
    (hc : Inv c) : Inv (es.foldl (fun c kv => c.sweepEntry now kv) c) := by
  induction es generalizing c with
  | nil => exact hc
  | cons a t ih => exact ih _ (sweepEntry_inv c hc now a)

theorem sweep_inv {α : Type} (c : cache α) (hc : Inv c) (now : Int) :
    Inv (c.DeleteAllExpiredItems now) :=
  sweepFold_inv now c.itemsMap c hc

/-! ## Reachable states are well formed -/

theorem NewCache_inv (α : Type) (maxSize d : Int) (h : 0 ≤ maxSize) :
    Inv (NewCache α maxSize d) := by
  refine ⟨?_, ?_, ?_, ?_, ?_, ?_, ?_⟩ <;> simp [NewCache, h]

theorem step_inv {α : Type} (c c1 : cache α) (hc : Inv c) (op : Op α)
    (h : step c op = some c1) : Inv c1 := by
  cases op with
  | set key val expiration now =>
    simp only [step, Option.map_eq_some'] at h
    obtain ⟨r, hr, rfl⟩ := h
    exact Set_inv c hc key val expiration now r hr
  | get key =>
    simp only [step, Option.map_eq_some'] at h
    obtain ⟨r, hr, rfl⟩ := h
    exact Get_inv c hc key r hr
  | sweep now =>
    simp only [step, Option.some.injEq] at h
    subst h
    exact sweep_inv c hc now

theorem run_inv {α : Type} (ops : List (Op α)) (c c1 : cache α) (hc : Inv c)
    (h : run c ops = some c1) : Inv c1 := by
  induction ops generalizing c with
  | nil =>
    simp only [run, Option.some.injEq] at h
    subst h
    exact hc
  | cons op t ih =>
    simp only [run, Option.bind_eq_some] at h
    obtain ⟨c2, h2, h3⟩ := h
    exact ih c2 (step_inv c c2 hc op h2) h3

theorem step_maxSize {α : Type} (c c1 : cache α) (op : Op α) (h : step c op = some c1) :
    c1.maxSize = c.maxSize ∧ c1.defaultExpiration = c.defaultExpiration := by
  cases op with
  | set key val expiration now =>
    simp only [step, Option.map_eq_some'] at h
    obtain ⟨r, hr, rfl⟩ := h
    rw [Set_eq] at hr
    split at hr <;> cases hr <;> exact ⟨rfl, rfl⟩
  | get key =>
    simp only [step, Option.map_eq_some'] at h
    obtain ⟨r, hr, rfl⟩ := h
    unfold cache.Get at hr
    split at hr
    · simp only at hr
      split at hr
      · cases hr
      · cases hr
        exact ⟨rfl, rfl⟩
    · cases hr
      exact ⟨rfl, rfl⟩
  | sweep now =>
    simp only [step, Option.some.injEq] at h
    subst h
    have hf : ∀ (es : List (String × Element α)) (c0 : cache α),
        (es.foldl (fun c kv => c.sweepEntry now kv) c0).maxSize = c0.maxSize ∧
        (es.foldl (fun c kv => c.sweepEntry now kv) c0).defaultExpiration
          = c0.defaultExpiration := by
      intro es
      induction es with
      | nil => intro c0; exact ⟨rfl, rfl⟩
      | cons a t ih =>
        intro c0
        have h1 := ih (c0.sweepEntry now a)
        have h2 : (c0.sweepEntry now a).maxSize = c0.maxSize ∧
            (c0.sweepEntry now a).defaultExpiration = c0.defaultExpiration := by
          unfold cache.sweepEntry
          split <;> exact ⟨rfl, rfl⟩
        exact ⟨h1.1.trans h2.1, h1.2.trans h2.2⟩
    exact hf c.itemsMap c

theorem run_maxSize {α : Type} (ops : List (Op α)) (c c1 : cache α)
    (h : run c ops = some c1) :
    c1.maxSize = c.maxSize ∧ c1.defaultExpiration = c.defaultExpiration := by
  induction ops generalizing c with
  | nil =>
    simp only [run, Option.some.injEq] at h
    subst h
    exact ⟨rfl, rfl⟩
  | cons op t ih =>
    simp only [run, Option.bind_eq_some] at h
    obtain ⟨c2, h2, h3⟩ := h
    have h4 := ih c2 h3
    have h5 := step_maxSize c c2 op h2
    exact ⟨h4.1.trans h5.1, h4.2.trans h5.2⟩

/-! ## Set followed by Get -/

theorem eq_of_id_eq {α : Type} (l : List (Element α)) (hn : (l.map (fun e => e.id)).Nodup)
    (x y : Element α) (hx : x ∈ l) (hy : y ∈ l) (hid : x.id = y.id) : x = y := by
  induction l with
  | nil => simp at hx
  | cons a t ih =>
    rw [List.map_cons, List.nodup_cons] at hn
    rcases List.mem_cons.mp hx with h1 | h1 <;> rcases List.mem_cons.mp hy with h2 | h2
    · rw [h1, h2]
    · subst h1
      exact absurd (List.mem_map.mpr ⟨y, h2, hid.symm⟩) hn.1
    · subst h2
      exact absurd (List.mem_map.mpr ⟨x, h1, hid⟩) hn.1
    · exact ih hn.2 h1 h2

theorem MoveToFront_head {α : Type} (l : List (Element α))
    (hn : (l.map (fun e => e.id)).Nodup) (e : Element α) (he : e ∈ l) :
    (list.MoveToFront l e).head? = some e := by
  unfold list.MoveToFront
  split
  · rename_i hc
    simp only [Bool.or_eq_true, Bool.not_eq_true'] at hc
    rcases hc with hc | hc
    · have : l.any (fun x => x.id == e.id) = true :=
        List.any_eq_true.mpr ⟨e, he, by simp⟩
      rw [this] at hc
      cases hc
    · cases l with
      | nil => simp at he
      | cons a t =>
        simp only [List.head?_cons, Option.map_some', beq_iff_eq, Option.some.injEq] at hc
        rw [List.head?_cons, eq_of_id_eq (a :: t) hn a e (List.mem_cons_self _ _) he hc]
  · rfl

/-- A key whose index element is linked in the list is read back with its own value. -/
theorem Get_of_mem {α : Type} (c : cache α) (hn : (c.itemsList.map (fun e => e.id)).Nodup)
    (key : String) (e : Element α) (hlk : c.itemsMap.lookup key = some e)
    (he : e ∈ c.itemsList) :
    c.Get key = some ({ c with itemsList := list.MoveToFront c.itemsList e },
      (e.Value.Object, true)) := by
  unfold cache.Get
  rw [hlk]
  simp only [list.Front, MoveToFront_head c.itemsList hn e he]

/-- A key that the index does not hold is a miss and leaves the state as it is. -/
theorem Get_of_none {α : Type} (c : cache α) (key : String)
    (hlk : c.itemsMap.lookup key = none) : c.Get key = some (c, (none, false)) := by
  unfold cache.Get
  rw [hlk]

/-- With a capacity of at least one, `Set` returns no error, records the new element for the
key and leaves it linked. -/
theorem Set_spec {α : Type} (c : cache α) (hc : Inv c) (hm : 1 ≤ c.maxSize) (key : String)
    (val : Option α) (expiration now : Int) :
    ∃ c1, c.Set key val expiration now = some (c1, none) ∧ Inv c1 ∧
      c1.itemsMap = mapStore c.itemsMap key (c.newElem val expiration now) ∧
      c.newElem val expiration now ∈ c1.itemsList ∧
      c1.maxSize = c.maxSize ∧ c1.defaultExpiration = c.defaultExpiration := by
  have hS := Set_inv c hc key val expiration now
  rw [Set_eq] at hS ⊢
  split
  · rename_i hgt
    refine ⟨_, rfl, hS _ (by rw [if_pos hgt]), rfl, ?_, rfl, rfl⟩
    show c.newElem val expiration now ∈ list.Remove _ _
    rw [list.mem_Remove]
    refine ⟨List.mem_cons_self _ _, ?_⟩
    have hne : c.unlinked key ≠ [] := by
      intro h0
      rw [h0] at hgt
      simp at hgt
      omega
    rw [List.getLast_cons hne]
    have := hc.listFresh _ (unlinked_sub c key _ (List.getLast_mem hne))
    simp only [cache.newElem]
    omega
  · rename_i hgt
    exact ⟨_, rfl, hS _ (by rw [if_neg hgt]), rfl, List.mem_cons_self _ _, rfl, rfl⟩

/-- C1.  Capacity invariant: in a cache created with a positive `maxSize`, after any
sequence of Set, Get and DeleteAllExpiredItems calls from the empty cache, a Set call
returns normally and leaves at most `maxSize` elements in the recency list. -/
theorem capacity_invariant {α : Type} (maxSize d : Int) (hpos : 0 < maxSize)
    (ops : List (Op α)) (c : cache α) (hrun : run (NewCache α maxSize d) ops = some c)
    (key : String) (val : Option α) (expiration now : Int) :
    ∃ c1, c.Set key val expiration now = some (c1, none) ∧
      (c1.itemsList.length : Int) ≤ maxSize := by
  have hc : Inv c := run_inv ops _ c (NewCache_inv α maxSize d (le_of_lt hpos)) hrun
  have hm : c.maxSize = maxSize := (run_maxSize ops _ c hrun).1
  obtain ⟨c1, h1, h2, _, _, h3, _⟩ :=
    Set_spec c hc (by rw [hm]; omega) key val expiration now
  refine ⟨c1, h1, ?_⟩
  have := h2.bound
  rw [h3, hm] at this
  exact this

/-- C4.  Set-then-Get round trip: in every state reachable from an empty cache with
`maxSize >= 1`, `Set(k, v, ttl)` followed immediately by `Get(k)` returns `(v, true)`. -/
theorem set_get_round_trip {α : Type} (maxSize d : Int) (hpos : 1 ≤ maxSize)
    (ops : List (Op α)) (c : cache α) (hrun : run (NewCache α maxSize d) ops = some c)
    (key : String) (val : Option α) (expiration now : Int) :
    ∃ c1 c2, c.Set key val expiration now = some (c1, none) ∧
      c1.Get key = some (c2, (val, true)) := by
  have hc : Inv c := run_inv ops _ c (NewCache_inv α maxSize d (by omega)) hrun
  have hm : c.maxSize = maxSize := (run_maxSize ops _ c hrun).1
  obtain ⟨c1, h1, h2, h3, h4, _, _⟩ :=
    Set_spec c hc (by rw [hm]; omega) key val expiration now
  have hlk : c1.itemsMap.lookup key = some (c.newElem val expiration now) := by
    rw [h3]
    exact lookup_mapStore_self _ _ _
  exact ⟨c1, _, h1, Get_of_mem c1 h2.listNodup key _ hlk h4⟩

/-- C7.  Replace-not-duplicate: in a reachable state (`maxSize >= 1`) where the element the
index holds for `k` is linked in the recency list, `Set(k, v, ttl)` returns normally, leaves
the length of the list unchanged, leaves exactly one element for `k` in the list (the new
one; the old one is unlinked), and a following `Get(k)` returns `(v, true)`. -/
theorem replace_not_duplicate {α : Type} (maxSize d : Int) (hpos : 1 ≤ maxSize)
    (ops : List (Op α)) (c : cache α) (hrun : run (NewCache α maxSize d) ops = some c)
    (key : String) (old : Element α) (hold : c.itemsMap.lookup key = some old)
    (hlinked : ∃ x ∈ c.itemsList, x.id = old.id)
    (val : Option α) (expiration now : Int) :
    ∃ c1 c2 h, c.Set key val expiration now = some (c1, none) ∧
      c1.itemsList.length = c.itemsList.length ∧
      c1.itemsMap.lookup key = some h ∧
      c1.itemsList.filter (fun e => e.id == h.id) = [h] ∧
      (∀ e ∈ c1.itemsList, e.id ≠ old.id) ∧
      c1.Get key = some (c2, (val, true)) := by
  have hc : Inv c := run_inv ops _ c (NewCache_inv α maxSize d (by omega)) hrun
  have hm : c.maxSize = maxSize := (run_maxSize ops _ c hrun).1
  obtain ⟨x, hx, hxid⟩ := hlinked
  have hU : c.unlinked key = list.Remove c.itemsList old := by
    unfold cache.unlinked
    rw [hold]
  have hlen := list.Remove_length_of_nodup c.itemsList old x hc.listNodup hx hxid
  have hb := hc.bound
  have hng : ¬ (((c.unlinked key).length + 1 : Int) > c.maxSize) := by
    rw [hU]
    omega
  have hS := Set_inv c hc key val expiration now
  have hE := Set_eq c key val expiration now
  rw [if_neg hng] at hE
  have hI := hS _ hE
  have hlk : (mapStore c.itemsMap key (c.newElem val expiration now)).lookup key
      = some (c.newElem val expiration now) := lookup_mapStore_self _ _ _
  refine ⟨_, _, c.newElem val expiration now, hE, ?_, hlk, ?_, ?_,
    Get_of_mem _ hI.listNodup key _ hlk (List.mem_cons_self _ _)⟩
  · show (c.newElem val expiration now :: c.unlinked key).length = c.itemsList.length
    rw [hU, List.length_cons]
    exact hlen
  · show (c.newElem val expiration now :: c.unlinked key).filter _ = _
    rw [List.filter_cons_of_pos (by simp), List.cons.injEq]
    refine ⟨rfl, ?_⟩
    rw [List.filter_eq_nil_iff]
    intro e he
    have := hc.listFresh e (unlinked_sub c key e he)
    simp only [cache.newElem, beq_iff_eq]
    omega
  · intro e he
    rcases List.mem_cons.mp he with h1 | h1
    · subst h1
      have := hc.mapFresh _ (lookup_mem _ _ _ hold)
      simp only [cache.newElem]
      simp only at this
      omega
    · rw [hU] at h1
      exact ((list.mem_Remove _ _ _).mp h1).2

/-! ## Set followed by a sweep -/

theorem wrapInt64_of_range (x : Int) (h1 : -2 ^ 63 ≤ x) (h2 : x < 2 ^ 63) :
    wrapInt64 x = x := by
  unfold wrapInt64
  norm_num at h1 h2 ⊢
  omega

theorem lookup_none_filter {α : Type} (m : List (String × Element α)) (key : String)
    (p : String × Element α → Bool) (h : m.lookup key = none) :
    (m.filter p).lookup key = none := by
  induction m with
  | nil => rfl
  | cons a t ih =>
    obtain ⟨k1, w⟩ := a
    by_cases hk : key = k1
    · subst hk
      simp [List.lookup] at h
    · have hb : (key == k1) = false := by simpa using hk
      simp only [List.lookup, hb] at h
      by_cases hp : p (k1, w) = true
      · rw [List.filter_cons_of_pos hp]
        simp only [List.lookup, hb]
        exact ih h
      · rw [List.filter_cons_of_neg hp]
        exact ih h

theorem sweepEntry_lookup_none {α : Type} (c : cache α) (now : Int)
    (kv : String × Element α) (key : String) (h : c.itemsMap.lookup key = none) :
    (c.sweepEntry now kv).itemsMap.lookup key = none := by
  unfold cache.sweepEntry
  split
  · exact lookup_none_filter _ _ _ h
  · exact h

theorem sweepFold_lookup_none {α : Type} (now : Int) (es : List (String × Element α))
    (c : cache α) (key : String) (h : c.itemsMap.lookup key = none) :
    (es.foldl (fun c kv => c.sweepEntry now kv) c).itemsMap.lookup key = none := by
  induction es generalizing c with
  | nil => exact h
  | cons a t ih => exact ih _ (sweepEntry_lookup_none c now a key h)

/-- A key visited by the sweep with an expired element is no longer in the index. -/
theorem sweepFold_gone {α : Type} (now : Int) (es : List (String × Element α))
    (c : cache α) (key : String) (e : Element α) (hmem : (key, e) ∈ es)
    (hexp : e.Value.Expired now = true) :
    (es.foldl (fun c kv => c.sweepEntry now kv) c).itemsMap.lookup key = none := by
  induction es generalizing c with
  | nil => simp at hmem
  | cons a t ih =>
    rcases List.mem_cons.mp hmem with h1 | h1
    · subst h1
      refine sweepFold_lookup_none now t _ key ?_
      show (cache.sweepEntry c now (key, e)).itemsMap.lookup key = none
      unfold cache.sweepEntry
      rw [if_pos hexp]
      exact lookup_filter_self _ _
    · exact ih _ h1

/-- An index entry survives the sweep, linked, when no visited entry that is expired has
its key or its element. -/
theorem sweepFold_keep {α : Type} (now : Int) (es : List (String × Element α))
    (c : cache α) (key : String) (e : Element α)
    (hlk : c.itemsMap.lookup key = some e) (he : e ∈ c.itemsList)
    (hes : ∀ kv ∈ es, kv.2.Value.Expired now = true → kv.1 ≠ key ∧ kv.2.id ≠ e.id) :
    (es.foldl (fun c kv => c.sweepEntry now kv) c).itemsMap.lookup key = some e ∧
      e ∈ (es.foldl (fun c kv => c.sweepEntry now kv) c).itemsList := by
  induction es generalizing c with
  | nil => exact ⟨hlk, he⟩
  | cons a t ih =>
    refine ih (c.sweepEntry now a) ?_ ?_ (fun kv hkv => hes kv (List.mem_cons_of_mem _ hkv))
    · unfold cache.sweepEntry
      split
      · rename_i hx
        have := (hes a (List.mem_cons_self _ _) hx).1
        show (mapDelete c.itemsMap a.1).lookup key = some e
        unfold mapDelete
        rw [lookup_filter_ne _ _ _ (fun h => this h.symm)]
        exact hlk
      · exact hlk
    · unfold cache.sweepEntry
      split
      · rename_i hx
        have := (hes a (List.mem_cons_self _ _) hx).2
        show e ∈ list.Remove c.itemsList a.2
        rw [list.mem_Remove]
        exact ⟨he, fun h => this h.symm⟩
      · exact he

/-- Set, then one sweep, then Get: the key is read back when the sweep is not later than
the stored expiration of the new element, and is a miss when it is later. -/
theorem Set_sweep_Get {α : Type} (c : cache α) (hc : Inv c) (hm : 1 ≤ c.maxSize)
    (key : String) (val : Option α) (expiration now : Int) :
    ∃ c1, c.Set key val expiration now = some (c1, none) ∧
      (∀ t1 : Int, t1 ≤ c.expOf expiration now →
        ∃ c2, (c1.DeleteAllExpiredItems t1).Get key = some (c2, (val, true))) ∧
      (∀ t2 : Int, c.expOf expiration now < t2 →
        (c1.DeleteAllExpiredItems t2).Get key
          = some (c1.DeleteAllExpiredItems t2, (none, false))) := by
  obtain ⟨c1, h1, h2, h3, h4, _, _⟩ := Set_spec c hc hm key val expiration now
  have hlk : c1.itemsMap.lookup key = some (c.newElem val expiration now) := by
    rw [h3]
    exact lookup_mapStore_self _ _ _
  refine ⟨c1, h1, ?_, ?_⟩
  · intro t1 ht1
    have hne : (c.newElem val expiration now).Value.Expired t1 = false := by
      simp only [cache.newElem, item.Expired]
      rw [if_neg (by omega)]
    have hk := sweepFold_keep t1 c1.itemsMap c1 key _ hlk h4 (by
      intro kv hkv hx
      rw [h3] at hkv
      rcases mem_mapStore _ _ _ _ hkv with h5 | h5
      · subst h5
        rw [hne] at hx
        cases hx
      · have hf := hc.mapFresh kv h5
        have h6 : kv ∈ mapStore c.itemsMap key (c.newElem val expiration now) := hkv
        unfold mapStore at h6
        constructor
        · intro hk1
          rcases List.mem_cons.mp h6 with h7 | h7
          · rw [h7] at hf
            simp [cache.newElem] at hf
          · have := (List.mem_filter.mp h7).2
            simp [hk1] at this
        · simp only [cache.newElem]
          omega)
    exact ⟨_, Get_of_mem _ (sweep_inv c1 h2 t1).listNodup key _ hk.1 hk.2⟩
  · intro t2 ht2
    refine Get_of_none _ key (sweepFold_gone t2 c1.itemsMap c1 key _
      (lookup_mem _ _ _ hlk) ?_)
    simp only [cache.newElem, item.Expired]
    rw [if_pos ht2]

/-- C8.  TTL expiry: in a state reachable from an empty cache with `maxSize >= 1`, after
`Set(k, v, d)` at time `t` with a positive TTL `d` (and `t + d` within `int64`), a sweep at
any time `t1 <= t + d` leaves `k` retrievable (`Get(k)` returns `(v, true)`), and a sweep at
any time `t2 > t + d` makes the following `Get(k)` return `(nil, false)`. -/
theorem ttl_expiry {α : Type} (maxSize d : Int) (hpos : 1 ≤ maxSize)
    (ops : List (Op α)) (c : cache α) (hrun : run (NewCache α maxSize d) ops = some c)
    (key : String) (val : Option α) (ttl t : Int) (httl : 0 < ttl)
    (ht : -2 ^ 63 ≤ t) (hov : t + ttl < 2 ^ 63) :
    ∃ c1, c.Set key val ttl t = some (c1, none) ∧
      (∀ t1 : Int, t1 ≤ t + ttl →
        ∃ c2, (c1.DeleteAllExpiredItems t1).Get key = some (c2, (val, true))) ∧
      (∀ t2 : Int, t + ttl < t2 →
        ∃ c2, (c1.DeleteAllExpiredItems t2).Get key = some (c2, (none, false))) := by
  have hc : Inv c := run_inv ops _ c (NewCache_inv α maxSize d (by omega)) hrun
  have hm : c.maxSize = maxSize := (run_maxSize ops _ c hrun).1
  have hexp : c.expOf ttl t = t + ttl := by
    have h0 : ttl ≠ DefaultExpiration := by
      unfold DefaultExpiration
      omega
    simp only [cache.expOf, if_neg h0]
    rw [if_pos httl]
    exact wrapInt64_of_range _ (by omega) hov
  obtain ⟨c1, h1, h2, h3⟩ := Set_sweep_Get c hc (by rw [hm]; omega) key val ttl t
  rw [hexp] at h2 h3
  exact ⟨c1, h1, h2, fun t2 ht2 => ⟨_, h3 t2 ht2⟩⟩

theorem lookup_none_of_keys {α : Type} (m : List (String × Element α)) (key : String)
    (h : ∀ kv ∈ m, kv.1 ≠ key) : m.lookup key = none := by
  induction m with
  | nil => rfl
  | cons a t ih =>
    obtain ⟨k1, w⟩ := a
    have h1 : k1 ≠ key := h (k1, w) (List.mem_cons_self _ _)
    have hb : (key == k1) = false := by
      simpa using (fun h2 => h1 h2.symm)
    simp only [List.lookup, hb]
    exact ih (fun kv hkv => h kv (List.mem_cons_of_mem _ hkv))

theorem keys_of_lookup_none {α : Type} (m : List (String × Element α)) (key : String)
    (h : m.lookup key = none) : ∀ kv ∈ m, kv.1 ≠ key := by
  induction m with
  | nil => simp
  | cons a t ih =>
    obtain ⟨k1, w⟩ := a
    by_cases hk : key = k1
    · subst hk
      simp [List.lookup] at h
    · have hb : (key == k1) = false := by simpa using hk
      simp only [List.lookup, hb] at h
      intro kv hkv
      rcases List.mem_cons.mp hkv with h1 | h1
      · subst h1
        exact fun h2 => hk h2.symm
      · exact ih h kv h1

theorem mapStore_of_lookup_none {α : Type} (m : List (String × Element α)) (key : String)
    (v : Element α) (h : m.lookup key = none) : mapStore m key v = (key, v) :: m := by
  unfold mapStore
  rw [List.filter_eq_self.mpr]
  intro kv hkv
  simpa using keys_of_lookup_none m key h kv hkv

theorem run_sets {α : Type} (ss : List (SetCall α)) (c : cache α)
    (hk : (ss.map (fun s => s.key)).Nodup)
    (hnew : ∀ s ∈ ss, c.itemsMap.lookup s.key = none)
    (hcap : ((c.itemsList.length + ss.length : Nat) : Int) ≤ c.maxSize) :
    run c (ss.map SetCall.op) = some (pushAll c ss) := by
  induction ss generalizing c with
  | nil => rfl
  | cons s t ih =>
    rw [List.map_cons, List.nodup_cons] at hk
    have hs := hnew s (List.mem_cons_self _ _)
    have hU : c.unlinked s.key = c.itemsList := by
      unfold cache.unlinked
      rw [hs]
    have hE := Set_eq c s.key s.val s.expiration s.now
    rw [hU, if_neg (by simp only [List.length_cons] at hcap; omega),
      mapStore_of_lookup_none _ _ _ hs] at hE
    simp only [List.map_cons, run, SetCall.op, step, hE, Option.map_some', Option.some_bind,
      pushAll]
    apply ih _ hk.2
    · intro s1 hs1
      have hne : s1.key ≠ s.key := by
        intro heq
        exact hk.1 (List.mem_map.mpr ⟨s1, hs1, heq⟩)
      have hb : (s1.key == s.key) = false := by simpa using hne
      simp only [List.lookup, hb]
      exact hnew s1 (List.mem_cons_of_mem _ hs1)
    · simp only [List.length_cons] at hcap ⊢
      have : c.itemsList.length + 1 + t.length = c.itemsList.length + (t.length + 1) := by
        omega
      rw [this]
      exact hcap

theorem pushAll_spec {α : Type} (ss : List (SetCall α)) (c : cache α) :
    ∃ L M, (pushAll c ss).itemsList = L ++ c.itemsList ∧
      (pushAll c ss).itemsMap = M ++ c.itemsMap ∧
      (∀ kv ∈ M, kv.1 ∈ ss.map (fun s => s.key)) ∧
      L.length = ss.length ∧ (pushAll c ss).maxSize = c.maxSize := by
  induction ss generalizing c with
  | nil => exact ⟨[], [], rfl, rfl, by simp, rfl, rfl⟩
  | cons s t ih =>
    obtain ⟨L, M, h1, h2, h3, h4, h5⟩ := ih
      { c with
        itemsMap := (s.key, c.newElem s.val s.expiration s.now) :: c.itemsMap
        itemsList := c.newElem s.val s.expiration s.now :: c.itemsList
        nextId := c.nextId + 1 }
    refine ⟨L ++ [c.newElem s.val s.expiration s.now],
      M ++ [(s.key, c.newElem s.val s.expiration s.now)], ?_, ?_, ?_, ?_, ?_⟩
    · simp only [pushAll, h1, List.append_assoc, List.singleton_append]
    · simp only [pushAll, h2, List.append_assoc, List.singleton_append]
    · intro kv hkv
      rcases List.mem_append.mp hkv with h6 | h6
      · exact List.mem_cons_of_mem _ (h3 kv h6)
      · simp only [List.mem_singleton] at h6
        subst h6
        simp
    · simp [h4]
    · simp only [pushAll, h5]

theorem Remove_append_last {α : Type} (A : List (Element α)) (x : Element α)
    (hn : ((A ++ [x]).map (fun e => e.id)).Nodup) : list.Remove (A ++ [x]) x = A := by
  unfold list.Remove
  rw [List.filter_append, List.filter_cons_of_neg (by simp), List.filter_nil,
    List.append_nil, List.filter_eq_self]
  intro a ha
  rw [List.map_append, List.nodup_append] at hn
  have hne : a.id ≠ x.id := fun heq =>
    hn.2.2 (List.mem_map.mpr ⟨a, ha, rfl⟩)
      (List.mem_map.mpr ⟨x, List.mem_singleton_self _, heq.symm⟩)
  simpa using hne

theorem MoveToFront_of_not_head {α : Type} (l : List (Element α)) (e : Element α)
    (hmem : ∃ x ∈ l, x.id = e.id) (hhead : l.head?.map (fun x => x.id) ≠ some e.id) :
    list.MoveToFront l e = e :: list.Remove l e := by
  unfold list.MoveToFront
  obtain ⟨x, hx, hid⟩ := hmem
  have h1 : l.any (fun x => x.id == e.id) = true :=
    List.any_eq_true.mpr ⟨x, hx, by simpa using hid⟩
  have h2 : (l.head?.map (fun x => x.id) == some e.id) = false := by
    simpa using hhead
  rw [h1, h2]
  rfl

/-- C6.  Get protects from eviction: on an empty cache of capacity `n >= 2` (here
`n = rest.length + 2`), after Set on `n` pairwise distinct keys `k1, k2, ...` in that
order, `Get(k1)` returns `(v1, true)`; a Set on one more new key then unlinks from the
recency list exactly the element of `k2`, the second oldest, and `Get(k1)` still returns
`(v1, true)`. -/
theorem get_protects_from_eviction {α : Type} (d : Int) (s1 s2 : SetCall α)
    (rest : List (SetCall α)) (snew : SetCall α)
    (hkeys : (((s1 :: s2 :: rest) ++ [snew]).map (fun s => s.key)).Nodup) :
    ∃ c1 c2 c3 c4 h2,
      run (NewCache α ((rest.length + 2 : Nat) : Int) d)
        ((s1 :: s2 :: rest).map SetCall.op) = some c1 ∧
      c1.Get s1.key = some (c2, (s1.val, true)) ∧
      c2.Set snew.key snew.val snew.expiration snew.now = some (c3, none) ∧
      c2.itemsMap.lookup s2.key = some h2 ∧ h2 ∈ c2.itemsList ∧
      (∀ e ∈ c2.itemsList, (e ∈ c3.itemsList ↔ e.id ≠ h2.id)) ∧
      c3.Get s1.key = some (c4, (s1.val, true)) := by
  rw [List.map_append, List.nodup_append] at hkeys
  obtain ⟨hk0, _, hdisj⟩ := hkeys
  have hknew : ∀ s ∈ s1 :: s2 :: rest, s.key ≠ snew.key := fun s hs heq =>
    hdisj (List.mem_map.mpr ⟨s, hs, rfl⟩)
      (List.mem_map.mpr ⟨snew, List.mem_singleton_self _, heq.symm⟩)
  have hrun := run_sets (s1 :: s2 :: rest) (NewCache α ((rest.length + 2 : Nat) : Int) d) hk0
    (fun _ _ => rfl) (by simp only [NewCache, List.length_nil, List.length_cons]; omega)
  have hI1 := run_inv _ _ _ (NewCache_inv α ((rest.length + 2 : Nat) : Int) d
    (Int.natCast_nonneg _)) hrun
  have hm1 := (run_maxSize _ _ _ hrun).1
  generalize hc1 : pushAll (NewCache α ((rest.length + 2 : Nat) : Int) d) (s1 :: s2 :: rest)
    = c1 at hrun hI1 hm1
  -- the two oldest elements
  obtain ⟨e0, he0⟩ : ∃ e : Element α, e =
      (NewCache α ((rest.length + 2 : Nat) : Int) d).newElem s1.val s1.expiration s1.now :=
    ⟨_, rfl⟩
  obtain ⟨e1, he1⟩ : ∃ e : Element α, e = (⟨1, ⟨s2.val,
      (NewCache α ((rest.length + 2 : Nat) : Int) d).expOf s2.expiration s2.now⟩⟩ :
        Element α) := ⟨_, rfl⟩
  have hv0 : e0.Value.Object = s1.val := by rw [he0]; rfl
  obtain ⟨L, M, hL, hM, hMk, hLlen, _⟩ := pushAll_spec rest
    { (NewCache α ((rest.length + 2 : Nat) : Int) d) with
      itemsMap := [(s2.key, e1), (s1.key, e0)]
      itemsList := [e1, e0]
      nextId := 2 }
  have hpush : pushAll (NewCache α ((rest.length + 2 : Nat) : Int) d) (s1 :: s2 :: rest)
      = pushAll { (NewCache α ((rest.length + 2 : Nat) : Int) d) with
          itemsMap := [(s2.key, e1), (s1.key, e0)]
          itemsList := [e1, e0]
          nextId := 2 } rest := by
    rw [he0, he1]
    rfl
  rw [← hpush, hc1] at hL hM
  simp only at hL hM
  have hlist : c1.itemsList = (L ++ [e1]) ++ [e0] := by
    rw [hL]
    simp
  -- the index of c1
  have hlk0 : c1.itemsMap.lookup s1.key = some e0 :=
    lookup_of_mem _ _ _ hI1.keysNodup (by rw [hM]; simp)
  have hlk1 : c1.itemsMap.lookup s2.key = some e1 :=
    lookup_of_mem _ _ _ hI1.keysNodup (by rw [hM]; simp)
  have hlkn : c1.itemsMap.lookup snew.key = none := by
    apply lookup_none_of_keys
    intro kv hkv
    rw [hM] at hkv
    rcases List.mem_append.mp hkv with h | h
    · obtain ⟨s, hs, hsk⟩ := List.mem_map.mp (hMk kv h)
      rw [← hsk]
      exact hknew s (List.mem_cons_of_mem _ (List.mem_cons_of_mem _ hs))
    · simp only [List.mem_cons, List.mem_singleton, List.not_mem_nil, or_false] at h
      rcases h with h | h
      · rw [h]
        exact hknew s2 (by simp)
      · rw [h]
        exact hknew s1 (by simp)
  -- serial numbers in the list of c1 are distinct
  have hnd1 := hI1.listNodup
  rw [hlist] at hnd1
  have hA : ∀ a ∈ L ++ [e1], a.id ≠ e0.id := by
    intro a ha heq
    rw [List.map_append, List.nodup_append] at hnd1
    exact hnd1.2.2 (List.mem_map.mpr ⟨a, ha, rfl⟩)
      (List.mem_map.mpr ⟨e0, List.mem_singleton_self _, heq.symm⟩)
  have hmem0 : e0 ∈ c1.itemsList := by rw [hlist]; simp
  -- the first Get
  have hG1 := Get_of_mem c1 hI1.listNodup s1.key e0 hlk0 hmem0
  have hMTF : list.MoveToFront c1.itemsList e0 = e0 :: (L ++ [e1]) := by
    rw [MoveToFront_of_not_head _ _ ⟨e0, hmem0, rfl⟩, hlist, Remove_append_last _ _ hnd1]
    rw [hlist]
    cases hAL : L ++ [e1] with
    | nil => simp at hAL
    | cons a t =>
      have := hA a (by rw [hAL]; exact List.mem_cons_self _ _)
      simpa using this
  rw [hMTF, hv0] at hG1
  have hI2 := Get_inv c1 hI1 s1.key _ hG1
  generalize hc2 : ({ c1 with itemsList := e0 :: (L ++ [e1]) } : cache α) = c2 at hG1 hI2
  have h2list : c2.itemsList = e0 :: (L ++ [e1]) := by rw [← hc2]
  have h2map : c2.itemsMap = c1.itemsMap := by rw [← hc2]
  have h2max : c2.maxSize = ((rest.length + 2 : Nat) : Int) := by rw [← hc2]; exact hm1
  simp only at hI2
  -- the Set on the new key
  have hU : c2.unlinked snew.key = e0 :: (L ++ [e1]) := by
    unfold cache.unlinked
    rw [h2map, hlkn, h2list]
  have hE := Set_eq c2 snew.key snew.val snew.expiration snew.now
  have hS := Set_inv c2 hI2 snew.key snew.val snew.expiration snew.now
  have hgt : ((c2.unlinked snew.key).length + 1 : Int) > c2.maxSize := by
    rw [hU, h2max]
    simp only [List.length_cons, List.length_append, hLlen, List.length_singleton,
      List.length_nil]
    push_cast
    omega
  rw [if_pos hgt] at hE
  have hlast : (c2.newElem snew.val snew.expiration snew.now :: c2.unlinked snew.key).getLast
      (List.cons_ne_nil _ _) = e1 := by
    simp [hU]
  rw [hlast] at hE
  obtain ⟨c3, hE3, hI3, h3map, h3list⟩ : ∃ c3,
      c2.Set snew.key snew.val snew.expiration snew.now = some (c3, none) ∧ Inv c3 ∧
      c3.itemsMap = mapStore c2.itemsMap snew.key
        (c2.newElem snew.val snew.expiration snew.now) ∧
      c3.itemsList = list.Remove
        (c2.newElem snew.val snew.expiration snew.now :: c2.unlinked snew.key) e1 :=
    ⟨_, hE, hS _ hE, rfl, rfl⟩
  have hlk3 : c3.itemsMap.lookup s1.key = some e0 := by
    rw [h3map]
    unfold mapStore
    have hne : s1.key ≠ snew.key := hknew s1 (by simp)
    have hb : (s1.key == snew.key) = false := by simpa using hne
    simp only [List.lookup, hb]
    rw [lookup_filter_ne _ _ _ hne, h2map]
    exact hlk0
  have hmem3 : e0 ∈ c3.itemsList := by
    rw [h3list, list.mem_Remove, hU]
    exact ⟨by simp, fun h => hA e1 (by simp) h.symm⟩
  have hG3 := Get_of_mem c3 hI3.listNodup s1.key e0 hlk3 hmem3
  rw [hv0] at hG3
  refine ⟨c1, c2, c3, _, e1, hrun, hG1, hE3, by rw [h2map]; exact hlk1,
    by rw [h2list]; simp, ?_, hG3⟩
  intro e he
  rw [h3list, list.mem_Remove, hU, ← h2list]
  exact ⟨fun h => h.2, fun h => ⟨List.mem_cons_of_mem _ he, h⟩⟩

/-! ## The code at concrete inputs -/

/-- C2, the code at a failing input.  Capacity 2, `Set` on `a`, `b`, `c`: the element of `a`
is unlinked from the recency list but `a` stays in the index, and `Get("a")` answers
`(3, true)`, the value of `c`, where the claim has `found = false`. -/
theorem eviction_keeps_index_key :
    (run (NewCache Nat 2 Second)
        [.set "a" (some 1) (10 * Second) 1000, .set "b" (some 2) (10 * Second) 2000,
          .set "c" (some 3) (10 * Second) 3000]).bind
      (fun c => (c.Get "a").map (fun r => (c.indexKeys, c.orderKeys, r.2)))
      = some (["c", "b", "a"], ["c", "b"], (some 3, true)) := by
  decide

/-- C3, the code at a failing input.  Capacity 1, `Set("a", 1)` then `Set("b", 2)`:
`Get("a")` answers `(2, true)`, although the most recent `Set` on `a` passed the value 1. -/
theorem get_returns_other_value :
    (run (NewCache Nat 1 Second)
        [.set "a" (some 1) (10 * Second) 1000, .set "b" (some 2) (10 * Second) 2000]).bind
      (fun c => (c.Get "a").map (fun r => r.2))
      = some (some 2, true) := by
  decide

/-- C5, the code at a failing input.  Capacity 1, `Set("a", 1)` then `Set("b", 2)`: the
index holds the keys `b` and `a`, the recency list only the element of `b`. -/
theorem index_keeps_evicted_key :
    (run (NewCache Nat 1 Second)
        [.set "a" (some 1) (10 * Second) 1000, .set "b" (some 2) (10 * Second) 2000]).map
      (fun c => (c.indexKeys, c.orderKeys, c.itemsList.map (fun e => e.id)))
      = some (["b", "a"], ["b"], [1]) := by
  decide

/-- C9, the code at a failing input.  `Set("k", 7, NoExpiration)` at Unix time
1700000000 s stores the expiration 0, and the sweep one second later removes the entry:
`Get("k")` answers `(nil, false)`. -/
theorem no_expiration_is_swept :
    (run (NewCache Nat 1 Second)
        [.set "k" (some 7) NoExpiration 1700000000000000000,
          .sweep 1700000001000000000]).bind
      (fun c => (c.Get "k").map (fun r => (c.indexKeys, r.2)))
      = some ([], (none, false)) := by
  decide

/-- Instance of `capacity_invariant`: capacity 2, after two Sets, a Get and a sweep. -/
theorem capacity_invariant_witness :
    (0 : Int) < 2 ∧ ∃ c : cache Nat,
      run (NewCache Nat 2 Second)
        [.set "a" (some 1) (10 * Second) 1000, .set "b" (some 2) 5 2000, .get "a",
          .sweep 3000] = some c ∧
      ∃ c1, c.Set "c" (some 3) (10 * Second) 4000 = some (c1, none) ∧
        (c1.itemsList.length : Int) ≤ 2 :=
  ⟨by decide, _, rfl,
    capacity_invariant 2 Second (by decide)
      [.set "a" (some 1) (10 * Second) 1000, .set "b" (some 2) 5 2000, .get "a", .sweep 3000]
      _ rfl "c" (some 3) (10 * Second) 4000⟩

/-- Instance of `set_get_round_trip`: capacity 2, after two Sets, a Get and a sweep. -/
theorem set_get_round_trip_witness :
    (1 : Int) ≤ 2 ∧ ∃ c : cache Nat,
      run (NewCache Nat 2 Second)
        [.set "a" (some 1) (10 * Second) 1000, .set "b" (some 2) 5 2000, .get "a",
          .sweep 3000] = some c ∧
      ∃ c1 c2, c.Set "c" (some 3) NoExpiration 4000 = some (c1, none) ∧
        c1.Get "c" = some (c2, (some 3, true)) :=
  ⟨by decide, _, rfl,
    set_get_round_trip 2 Second (by decide)
      [.set "a" (some 1) (10 * Second) 1000, .set "b" (some 2) 5 2000, .get "a", .sweep 3000]
      _ rfl "c" (some 3) NoExpiration 4000⟩

/-- Instance of `get_protects_from_eviction`: capacity 3, keys `a`, `b`, `c`, then `d`. -/
theorem get_protects_from_eviction_witness :
    (([SetCall.mk "a" (some 1) (10 * Second) 1000, SetCall.mk "b" (some 2) (10 * Second) 2000,
        SetCall.mk "c" (some 3) (10 * Second) 3000]
        ++ [SetCall.mk "d" (some 4) (10 * Second) 5000]).map
          (fun s : SetCall Nat => s.key)).Nodup ∧
    ∃ c1 c2 c3 c4 h2,
      run (NewCache Nat ((([SetCall.mk "c" (some 3) (10 * Second) 3000].length + 2 : Nat)) : Int)
          Second)
        ([SetCall.mk "a" (some 1) (10 * Second) 1000,
          SetCall.mk "b" (some 2) (10 * Second) 2000,
          SetCall.mk "c" (some 3) (10 * Second) 3000].map SetCall.op) = some c1 ∧
      c1.Get "a" = some (c2, (some 1, true)) ∧
      c2.Set "d" (some 4) (10 * Second) 5000 = some (c3, none) ∧
      c2.itemsMap.lookup "b" = some h2 ∧ h2 ∈ c2.itemsList ∧
      (∀ e ∈ c2.itemsList, (e ∈ c3.itemsList ↔ e.id ≠ h2.id)) ∧
      c3.Get "a" = some (c4, (some 1, true)) :=
  ⟨by decide,
    get_protects_from_eviction Second (SetCall.mk "a" (some 1) (10 * Second) 1000)
      (SetCall.mk "b" (some 2) (10 * Second) 2000) [SetCall.mk "c" (some 3) (10 * Second) 3000]
      (SetCall.mk "d" (some 4) (10 * Second) 5000) (by decide)⟩

/-- Instance of `replace_not_duplicate`: capacity 2, `a` and `b` stored, `a` set again. -/
theorem replace_not_duplicate_witness :
    (1 : Int) ≤ 2 ∧ ∃ (c : cache Nat) (old : Element Nat),
      run (NewCache Nat 2 Second)
        [.set "a" (some 1) (10 * Second) 1000, .set "b" (some 2) (10 * Second) 2000]
        = some c ∧
      c.itemsMap.lookup "a" = some old ∧ (∃ x ∈ c.itemsList, x.id = old.id) ∧
      ∃ c1 c2 h, c.Set "a" (some 9) (10 * Second) 3000 = some (c1, none) ∧
        c1.itemsList.length = c.itemsList.length ∧
        c1.itemsMap.lookup "a" = some h ∧
        c1.itemsList.filter (fun e => e.id == h.id) = [h] ∧
        (∀ e ∈ c1.itemsList, e.id ≠ old.id) ∧
        c1.Get "a" = some (c2, (some 9, true)) :=
  ⟨by decide, _, _, rfl, rfl,
    ⟨_, List.mem_cons_of_mem _ (List.mem_cons_self _ _), rfl⟩,
    replace_not_duplicate 2 Second (by decide)
      [.set "a" (some 1) (10 * Second) 1000, .set "b" (some 2) (10 * Second) 2000]
      _ rfl "a" _ rfl ⟨_, List.mem_cons_of_mem _ (List.mem_cons_self _ _), rfl⟩
      (some 9) (10 * Second) 3000⟩

/-- Instance of `ttl_expiry`: the scenario of `Test_cache`, capacity 100 and a TTL of 3 s. -/
theorem ttl_expiry_witness :
    (1 : Int) ≤ 100 ∧ (0 : Int) < 3 * Second ∧ -2 ^ 63 ≤ (1000 : Int) ∧
    (1000 : Int) + 3 * Second < 2 ^ 63 ∧
    run (NewCache Nat 100 Second) [] = some (NewCache Nat 100 Second) ∧
    ∃ c1, (NewCache Nat 100 Second).Set "key" (some 42) (3 * Second) 1000 = some (c1, none) ∧
      (∀ t1 : Int, t1 ≤ 1000 + 3 * Second →
        ∃ c2, (c1.DeleteAllExpiredItems t1).Get "key" = some (c2, (some 42, true))) ∧
      (∀ t2 : Int, 1000 + 3 * Second < t2 →
        ∃ c2, (c1.DeleteAllExpiredItems t2).Get "key" = some (c2, (none, false))) :=
  ⟨by decide, by decide, by decide, by decide, rfl,
    ttl_expiry 100 Second (by decide) [] (NewCache Nat 100 Second) rfl "key" (some 42)
      (3 * Second) 1000 (by decide) (by decide) (by decide)⟩

theorem wrapInt64_spec (x : Int) :
    -2 ^ 63 ≤ wrapInt64 x ∧ wrapInt64 x < 2 ^ 63 ∧ (2 ^ 64 : Int) ∣ (wrapInt64 x - x) := by
  unfold wrapInt64
  norm_num
  refine ⟨?_, ?_, ?_⟩ <;> omega

/-- C11 as stated fails.  `Set("key", 42, ttl)` with the positive TTL `ttl = 2^63 - 1` (the
largest `time.Duration`) at Unix time 1700000000 s stores the expiration
`-7523372036854775809`, the `int64` wrap of `now + ttl`, and not `now + ttl`. -/
theorem ttl_sum_overflows :
    ((NewCache Nat 100 Second).Set "key" (some 42) 9223372036854775807
        1700000000000000000).bind
      (fun r => (r.1.itemsMap.lookup "key").map (fun e => e.Value.Expiration))
      = some (-7523372036854775809) ∧
    (-7523372036854775809 : Int) ≠ 1700000000000000000 + 9223372036854775807 := by
  decide

/-- C11, as amended.  Default TTL substitution: in every state, `Set(k, v,
DefaultExpiration)` gives exactly the result of `Set(k, v, c.defaultExpiration)`.  With a
positive `defaultExpiration`, and for an explicit positive `ttl`, the expiration stored for
`k` is the `int64` sum of `now` and the TTL: a value of the `int64` range that differs from
the integer sum by a multiple of `2^64`, and the integer sum itself whenever that sum does
not overflow `int64`. -/
theorem default_ttl_substitution {α : Type} (c : cache α) (key : String) (val : Option α)
    (now : Int) :
    c.Set key val DefaultExpiration now = c.Set key val c.defaultExpiration now ∧
    (0 < c.defaultExpiration →
      ∃ c1 e, c.Set key val DefaultExpiration now = some (c1, none) ∧
        c1.itemsMap.lookup key = some e ∧
        -2 ^ 63 ≤ e.Value.Expiration ∧ e.Value.Expiration < 2 ^ 63 ∧
        (2 ^ 64 : Int) ∣ (e.Value.Expiration - (now + c.defaultExpiration)) ∧
        (-2 ^ 63 ≤ now + c.defaultExpiration → now + c.defaultExpiration < 2 ^ 63 →
          e.Value.Expiration = now + c.defaultExpiration)) ∧
    (∀ ttl : Int, 0 < ttl →
      ∃ c1 e, c.Set key val ttl now = some (c1, none) ∧
        c1.itemsMap.lookup key = some e ∧
        -2 ^ 63 ≤ e.Value.Expiration ∧ e.Value.Expiration < 2 ^ 63 ∧
        (2 ^ 64 : Int) ∣ (e.Value.Expiration - (now + ttl)) ∧
        (-2 ^ 63 ≤ now + ttl → now + ttl < 2 ^ 63 → e.Value.Expiration = now + ttl)) := by
  have hstored : ∀ expiration : Int, ∃ c1, c.Set key val expiration now = some (c1, none) ∧
      c1.itemsMap.lookup key = some (c.newElem val expiration now) := by
    intro expiration
    rw [Set_eq]
    split
    · exact ⟨_, rfl, lookup_mapStore_self _ _ _⟩
    · exact ⟨_, rfl, lookup_mapStore_self _ _ _⟩
  have hexp0 : c.expOf DefaultExpiration now = c.expOf c.defaultExpiration now := by
    unfold cache.expOf
    by_cases h : c.defaultExpiration = DefaultExpiration
    · simp [h]
    · simp [h]
  refine ⟨?_, ?_, ?_⟩
  · rw [Set_eq, Set_eq]
    simp only [cache.newElem, hexp0]
  · intro hd
    obtain ⟨c1, h1, h2⟩ := hstored DefaultExpiration
    have hv : (c.newElem val DefaultExpiration now).Value.Expiration
        = wrapInt64 (now + c.defaultExpiration) := by
      simp only [cache.newElem, cache.expOf, if_true]
      rw [if_pos hd]
    have hw := wrapInt64_spec (now + c.defaultExpiration)
    rw [← hv] at hw
    exact ⟨c1, _, h1, h2, hw.1, hw.2.1, hw.2.2,
      fun hlo hhi => hv.trans (wrapInt64_of_range _ hlo hhi)⟩
  · intro ttl httl
    obtain ⟨c1, h1, h2⟩ := hstored ttl
    have h0 : ttl ≠ DefaultExpiration := by
      unfold DefaultExpiration
      omega
    have hv : (c.newElem val ttl now).Value.Expiration = wrapInt64 (now + ttl) := by
      simp only [cache.newElem, cache.expOf, if_neg h0]
      rw [if_pos httl]
    have hw := wrapInt64_spec (now + ttl)
    rw [← hv] at hw
    exact ⟨c1, _, h1, h2, hw.1, hw.2.1, hw.2.2,
      fun hlo hhi => hv.trans (wrapInt64_of_range _ hlo hhi)⟩

/-- Instance of `default_ttl_substitution`: the empty cache of `NewCache` (default TTL
3600 s) and an explicit TTL of 3 s at Unix time 1700000000 s; neither sum overflows. -/
theorem default_ttl_substitution_witness :
    (0 : Int) < (NewCache Nat 100 Second).defaultExpiration ∧ (0 : Int) < 3 * Second ∧
    (-2 ^ 63 ≤ (1700000000000000000 : Int) + 3 * Second ∧
      (1700000000000000000 : Int) + 3 * Second < 2 ^ 63) ∧
    (∃ c1 e, (NewCache Nat 100 Second).Set "key" (some 42) DefaultExpiration
          1700000000000000000 = some (c1, none) ∧
        c1.itemsMap.lookup "key" = some e ∧
        e.Value.Expiration
          = 1700000000000000000 + (NewCache Nat 100 Second).defaultExpiration) ∧
    (∃ c1 e, (NewCache Nat 100 Second).Set "key" (some 42) (3 * Second)
          1700000000000000000 = some (c1, none) ∧
        c1.itemsMap.lookup "key" = some e ∧
        e.Value.Expiration = 1700000000000000000 + 3 * Second) := by
  have h := default_ttl_substitution (NewCache Nat 100 Second) "key" (some 42)
    1700000000000000000
  obtain ⟨c1, e, h1, h2, _, _, _, h3⟩ := h.2.1 (by decide)
  obtain ⟨c2, e2, h4, h5, _, _, _, h6⟩ := h.2.2 (3 * Second) (by decide)
  exact ⟨by decide, by decide, ⟨by decide, by decide⟩,
    ⟨c1, e, h1, h2, h3 (by decide) (by decide)⟩,
    ⟨c2, e2, h4, h5, h6 (by decide) (by decide)⟩⟩

/-! ## Get on a miss, Set without error -/

/-- C13.  Get miss is a pure read: in every state, for a key that is not in the index,
`Get` returns `(nil, false)` and the state (index, recency list with its order, every
entry) is unchanged. -/
theorem get_miss_is_pure {α : Type} (c : cache α) (key : String)
    (h : key ∉ c.indexKeys) : c.Get key = some (c, (none, false)) := by
  apply Get_of_none
  apply lookup_none_of_keys
  intro kv hkv heq
  exact h (List.mem_map.mpr ⟨kv, hkv, heq⟩)

/-- Instance of `get_miss_is_pure`: the key `z` after `Set` on `a` and `b`. -/
theorem get_miss_is_pure_witness :
    ∃ c : cache Nat,
      run (NewCache Nat 2 Second)
        [.set "a" (some 1) (10 * Second) 1000, .set "b" (some 2) (10 * Second) 2000]
        = some c ∧
      "z" ∉ c.indexKeys ∧ c.Get "z" = some (c, (none, false)) :=
  ⟨_, rfl, by decide, get_miss_is_pure _ "z" (by decide)⟩

/-- C14.  Set never fails: in every state, for every key, value, TTL and clock reading,
`Set` returns the nil error (the `iter == nil` branch is never taken, and there is no
panic), and the index then holds the new element under the key. -/
theorem set_never_fails {α : Type} (c : cache α) (key : String) (val : Option α)
    (expiration now : Int) :
    ∃ c1, c.Set key val expiration now = some (c1, none) ∧
      c1.itemsMap.lookup key = some (c.newElem val expiration now) ∧
      key ∈ c1.indexKeys := by
  have hmem : key ∈ (mapStore c.itemsMap key (c.newElem val expiration now)).map
      (fun kv => kv.1) := by
    simp [mapStore]
  rw [Set_eq]
  split
  · exact ⟨_, rfl, lookup_mapStore_self _ _ _, hmem⟩
  · exact ⟨_, rfl, lookup_mapStore_self _ _ _, hmem⟩

/-- C12, the code at a failing input.  Capacity 1: `Set("a", 1, 10 s)` and
`Set("b", 2, 1 s)` at Unix time 1700000000 s, then the sweep 5 s later.  The sweep removes
`b`; the key `a`, evicted from the list but never from the index, survives it, so the list
is empty while the index is not, and `Get("a")` dereferences the nil `Front()`. -/
theorem get_panics_on_empty_list :
    (run (NewCache Nat 1 Second)
        [.set "a" (some 1) (10 * Second) 1700000000000000000,
          .set "b" (some 2) (1 * Second) 1700000000000000000,
          .sweep 1700000005000000000]).map
      (fun c => (c.indexKeys, c.itemsList.length, (c.Get "a").map (fun r => r.2)))
      = some (["a"], 0, none) := by
  decide

/-! ## The shape of reachable states, for every capacity -/

theorem Shape.toInv {α : Type} (c : cache α) (h : Shape c) (m : Int)
    (hm : (c.itemsList.length : Int) ≤ m) : Inv { c with maxSize := m } :=
  ⟨h.listFresh, h.mapFresh, h.listNodup, h.keysNodup, hm, h.mapIds, h.agree⟩

theorem Shape.ofInv {α : Type} (c1 c : cache α) (h : Inv c1)
    (hmap : c1.itemsMap = c.itemsMap) (hlist : c1.itemsList = c.itemsList)
    (hnext : c1.nextId = c.nextId)
    (hlinked : ∀ x ∈ c.itemsList, ∃ kv ∈ c.itemsMap, kv.2 = x) : Shape c := by
  have h1 := h.listFresh
  have h2 := h.mapFresh
  have h3 := h.listNodup
  have h4 := h.keysNodup
  have h5 := h.mapIds
  have h6 := h.agree
  rw [hmap] at h2 h4 h5 h6
  rw [hlist] at h1 h3 h6
  rw [hnext] at h1 h2
  exact ⟨h1, h2, h3, h4, h5, h6, hlinked⟩

theorem eq_of_key_eq {α : Type} (m : List (String × Element α))
    (hn : (m.map (fun kv => kv.1)).Nodup) (kv kv2 : String × Element α)
    (h1 : kv ∈ m) (h2 : kv2 ∈ m) (hk : kv2.1 = kv.1) : kv2 = kv := by
  have e1 := lookup_of_mem m kv.1 kv.2 hn h1
  have e2 := lookup_of_mem m kv2.1 kv2.2 hn h2
  rw [hk, e1] at e2
  exact Prod.ext hk (Option.some.inj e2).symm

/-- The state `Set` returns has the shape as soon as its list is a duplicate-free part of
the pushed list. -/
theorem Shape_of_Set_state {α : Type} (c : cache α) (hc : Shape c) (key : String)
    (val : Option α) (expiration now : Int) (l3 : List (Element α))
    (hsub : ∀ x ∈ l3, x ∈ c.newElem val expiration now :: c.unlinked key)
    (hnd : (l3.map (fun e => e.id)).Nodup) :
    Shape { c with
            itemsMap := mapStore c.itemsMap key (c.newElem val expiration now)
            itemsList := l3
            nextId := c.nextId + 1 } := by
  have hI := Inv_of_Set_state
    { c with maxSize := max (c.itemsList.length : Int) (l3.length : Int) }
    (Shape.toInv c hc _ (le_max_left _ _)) key val expiration now l3 hsub hnd (le_max_right _ _)
  refine Shape.ofInv _ _ hI rfl rfl rfl ?_
  intro x hx
  show ∃ kv ∈ mapStore c.itemsMap key (c.newElem val expiration now), kv.2 = x
  rcases List.mem_cons.mp (hsub x hx) with h1 | h1
  · exact ⟨(key, c.newElem val expiration now), List.mem_cons_self _ _, h1.symm⟩
  · obtain ⟨kv, hkv, hkx⟩ := hc.linked x (unlinked_sub c key x h1)
    refine ⟨kv, ?_, hkx⟩
    unfold mapStore
    refine List.mem_cons_of_mem _ (List.mem_filter.mpr ⟨hkv, ?_⟩)
    have hne : kv.1 ≠ key := by
      intro heq
      have hlk := lookup_of_mem c.itemsMap kv.1 kv.2 hc.keysNodup hkv
      rw [heq, hkx] at hlk
      unfold cache.unlinked at h1
      rw [hlk] at h1
      exact ((list.mem_Remove _ _ _).mp h1).2 rfl
    simpa using hne

theorem Set_shape {α : Type} (c : cache α) (hc : Shape c) (key : String) (val : Option α)
    (expiration now : Int) (r : cache α × Option String)
    (h : c.Set key val expiration now = some r) : Shape r.1 := by
  have hp : ((c.newElem val expiration now :: c.unlinked key).map (fun e => e.id)).Nodup :=
    pushed_nodup { c with maxSize := (c.itemsList.length : Int) }
      (Shape.toInv c hc _ (le_refl _)) key val expiration now
  rw [Set_eq] at h
  split at h
  · cases h
    exact Shape_of_Set_state c hc key val expiration now _
      (fun x hx => ((list.mem_Remove _ _ _).mp hx).1) (list.Remove_nodup _ _ hp)
  · cases h
    exact Shape_of_Set_state c hc key val expiration now _ (fun x hx => hx) hp

theorem MoveToFront_shape {α : Type} (c : cache α) (hc : Shape c) (key : String)
    (e : Element α) (hmem : (key, e) ∈ c.itemsMap) :
    Shape { c with itemsList := list.MoveToFront c.itemsList e } := by
  have hI := MoveToFront_inv { c with maxSize := (c.itemsList.length : Int) }
    (Shape.toInv c hc _ (le_refl _)) key e hmem
  refine Shape.ofInv _ _ hI rfl rfl rfl ?_
  intro x hx
  show ∃ kv ∈ c.itemsMap, kv.2 = x
  have hx1 : x ∈ list.MoveToFront c.itemsList e := hx
  rcases MoveToFront_cases c.itemsList e with h | ⟨_, h⟩
  · rw [h] at hx1
    exact hc.linked x hx1
  · rw [h] at hx1
    rcases List.mem_cons.mp hx1 with h1 | h1
    · exact ⟨(key, e), hmem, h1.symm⟩
    · exact hc.linked x ((list.mem_Remove _ _ _).mp h1).1

theorem Get_shape {α : Type} (c : cache α) (hc : Shape c) (key : String)
    (r : cache α × (Option α × Bool)) (h : c.Get key = some r) : Shape r.1 := by
  unfold cache.Get at h
  split at h
  · rename_i elem hlk
    simp only at h
    split at h
    · cases h
    · cases h
      exact MoveToFront_shape c hc key elem (lookup_mem _ _ _ hlk)
  · cases h
    exact hc

theorem sweepEntry_fields {α : Type} (c : cache α) (m : Int) (now : Int)
    (kv : String × Element α) :
    (cache.sweepEntry { c with maxSize := m } now kv).itemsMap = (c.sweepEntry now kv).itemsMap ∧
    (cache.sweepEntry { c with maxSize := m } now kv).itemsList
      = (c.sweepEntry now kv).itemsList ∧
    (cache.sweepEntry { c with maxSize := m } now kv).nextId = (c.sweepEntry now kv).nextId := by
  unfold cache.sweepEntry
  split <;> exact ⟨rfl, rfl, rfl⟩

theorem sweepEntry_map_sub {α : Type} (c : cache α) (now : Int) (kv : String × Element α)
    (x : String × Element α) (hx : x ∈ (c.sweepEntry now kv).itemsMap) : x ∈ c.itemsMap := by
  unfold cache.sweepEntry at hx
  split at hx
  · exact (List.mem_filter.mp hx).1
  · exact hx

/-- One step of the sweep keeps the shape, when the visited entry is the only entry of the
index under its key. -/
theorem sweepEntry_shape {α : Type} (c : cache α) (hc : Shape c) (now : Int)
    (kv : String × Element α)
    (hkv : ∀ kv2 ∈ c.itemsMap, kv2.1 = kv.1 → kv2 = kv) : Shape (c.sweepEntry now kv) := by
  have hI := sweepEntry_inv { c with maxSize := (c.itemsList.length : Int) }
    (Shape.toInv c hc _ (le_refl _)) now kv
  obtain ⟨f1, f2, f3⟩ := sweepEntry_fields c (c.itemsList.length : Int) now kv
  refine Shape.ofInv _ _ hI f1 f2 f3 ?_
  unfold cache.sweepEntry
  split
  · intro x hx
    have hx1 := (list.mem_Remove _ _ _).mp hx
    obtain ⟨kv2, h2, h3⟩ := hc.linked x hx1.1
    refine ⟨kv2, List.mem_filter.mpr ⟨h2, ?_⟩, h3⟩
    have hne : kv2.1 ≠ kv.1 := by
      intro heq
      have := hkv kv2 h2 heq
      rw [this] at h3
      exact hx1.2 (by rw [h3])
    simpa using hne
  · exact hc.linked

theorem sweepFold_shape {α : Type} (now : Int) (es : List (String × Element α))
    (c : cache α) (hc : Shape c)
    (hes : ∀ kv ∈ es, ∀ kv2 ∈ c.itemsMap, kv2.1 = kv.1 → kv2 = kv) :
    Shape (es.foldl (fun c kv => c.sweepEntry now kv) c) := by
  induction es generalizing c with
  | nil => exact hc
  | cons a t ih =>
    refine ih _ (sweepEntry_shape c hc now a (hes a (List.mem_cons_self _ _))) ?_
    intro kv hkv kv2 hkv2 heq
    exact hes kv (List.mem_cons_of_mem _ hkv) kv2 (sweepEntry_map_sub c now a kv2 hkv2) heq

theorem sweep_shape {α : Type} (c : cache α) (hc : Shape c) (now : Int) :
    Shape (c.DeleteAllExpiredItems now) :=
  sweepFold_shape now c.itemsMap c hc
    (fun kv hkv kv2 hkv2 heq => eq_of_key_eq c.itemsMap hc.keysNodup kv kv2 hkv hkv2 heq)

theorem NewCache_shape (α : Type) (maxSize d : Int) : Shape (NewCache α maxSize d) := by
  refine ⟨?_, ?_, ?_, ?_, ?_, ?_, ?_⟩ <;> simp [NewCache]

theorem step_shape {α : Type} (c c1 : cache α) (hc : Shape c) (op : Op α)
    (h : step c op = some c1) : Shape c1 := by
  cases op with
  | set key val expiration now =>
    simp only [step, Option.map_eq_some'] at h
    obtain ⟨r, hr, rfl⟩ := h
    exact Set_shape c hc key val expiration now r hr
  | get key =>
    simp only [step, Option.map_eq_some'] at h
    obtain ⟨r, hr, rfl⟩ := h
    exact Get_shape c hc key r hr
  | sweep now =>
    simp only [step, Option.some.injEq] at h
    subst h
    exact sweep_shape c hc now

theorem run_shape {α : Type} (ops : List (Op α)) (c c1 : cache α) (hc : Shape c)
    (h : run c ops = some c1) : Shape c1 := by
  induction ops generalizing c with
  | nil =>
    simp only [run, Option.some.injEq] at h
    subst h
    exact hc
  | cons op t ih =>
    simp only [run, Option.bind_eq_some] at h
    obtain ⟨c2, h2, h3⟩ := h
    exact ih c2 (step_shape c c2 hc op h2) h3

/-! ## The recency list against the index -/

theorem filter_id_length_le_one {α : Type} (l : List (Element α)) (n : Nat)
    (hn : (l.map (fun e => e.id)).Nodup) : (l.filter (fun x => x.id == n)).length ≤ 1 := by
  induction l with
  | nil => simp
  | cons a t ih =>
    rw [List.map_cons, List.nodup_cons] at hn
    by_cases ha : a.id = n
    · rw [List.filter_cons_of_pos (by simpa using ha)]
      have : t.filter (fun x => x.id == n) = [] := by
        rw [List.filter_eq_nil_iff]
        intro x hx hxn
        have hxn1 : x.id = n := by simpa using hxn
        exact hn.1 (List.mem_map.mpr ⟨x, hx, by rw [hxn1, ha]⟩)
      rw [this]
      simp
    · rw [List.filter_cons_of_neg (by simpa using ha)]
      exact ih hn.2

/-- C18.  In every state reachable from an empty cache (of any capacity) by Set, Get and
DeleteAllExpiredItems calls, every element of the recency list is the index element of
exactly one key; hence the list holds at most one element for each key of the index, and
it is not longer than the index. -/
theorem order_elements_are_index_handles {α : Type} (maxSize d : Int) (ops : List (Op α))
    (c : cache α) (hrun : run (NewCache α maxSize d) ops = some c) :
    (∀ x ∈ c.itemsList, ∃! key, c.itemsMap.lookup key = some x) ∧
    (∀ key e, c.itemsMap.lookup key = some e →
      (c.itemsList.filter (fun x => x.id == e.id)).length ≤ 1) ∧
    c.itemsList.length ≤ c.indexKeys.length := by
  have hs : Shape c := run_shape ops _ c (NewCache_shape α maxSize d) hrun
  refine ⟨?_, ?_, ?_⟩
  · intro x hx
    obtain ⟨kv, hkv, hkx⟩ := hs.linked x hx
    refine ⟨kv.1, ?_, ?_⟩
    · show c.itemsMap.lookup kv.1 = some x
      rw [← hkx]
      exact lookup_of_mem _ _ _ hs.keysNodup hkv
    · intro key hkey
      have hmem := lookup_mem _ _ _ hkey
      have := hs.mapIds (key, x) hmem kv hkv (by rw [hkx])
      rw [← this]
  · intro key e _
    exact filter_id_length_le_one c.itemsList e.id hs.listNodup
  · have hsub : c.itemsList.map (fun e => e.id) ⊆ c.itemsMap.map (fun kv => kv.2.id) := by
      intro n hn
      obtain ⟨x, hx, hxn⟩ := List.mem_map.mp hn
      obtain ⟨kv, hkv, hkx⟩ := hs.linked x hx
      exact List.mem_map.mpr ⟨kv, hkv, by rw [hkx, hxn]⟩
    have := (List.subperm_of_subset hs.listNodup hsub).length_le
    simpa [cache.indexKeys] using this

/-- Instance of `order_elements_are_index_handles`: capacity 1, after `Set` on `a` and
`b` and a `Get` on `b`. -/
theorem order_elements_are_index_handles_witness :
    ∃ c : cache Nat,
      run (NewCache Nat 1 Second)
        [.set "a" (some 1) (10 * Second) 1000, .set "b" (some 2) (10 * Second) 2000,
          .get "b"] = some c ∧
      (∀ x ∈ c.itemsList, ∃! key, c.itemsMap.lookup key = some x) ∧
      (∀ key e, c.itemsMap.lookup key = some e →
        (c.itemsList.filter (fun x => x.id == e.id)).length ≤ 1) ∧
      c.itemsList.length ≤ c.indexKeys.length :=
  ⟨_, rfl,
    order_elements_are_index_handles 1 Second
      [.set "a" (some 1) (10 * Second) 1000, .set "b" (some 2) (10 * Second) 2000, .get "b"]
      _ rfl⟩

/-! ## What the sweep removes -/

theorem sweepFold_map {α : Type} (now : Int) (es : List (String × Element α)) (c : cache α) :
    (es.foldl (fun c kv => c.sweepEntry now kv) c).itemsMap
      = c.itemsMap.filter
          (fun x => es.all (fun kv => !(kv.2.Value.Expired now) || x.1 != kv.1)) := by
  induction es generalizing c with
  | nil => simp
  | cons a t ih =>
    rw [List.foldl_cons, ih]
    unfold cache.sweepEntry
    split
    · rename_i hexp
      show (mapDelete c.itemsMap a.1).filter _ = _
      unfold mapDelete
      rw [List.filter_filter]
      apply List.filter_congr
      intro x _
      simp only [List.all_cons, hexp, Bool.not_true, Bool.false_or]
      exact Bool.and_comm _ _
    · rename_i hexp
      apply List.filter_congr
      intro x _
      simp only [List.all_cons, hexp, Bool.not_false, Bool.true_or, Bool.true_and]

theorem sweepFold_list {α : Type} (now : Int) (es : List (String × Element α)) (c : cache α) :
    (es.foldl (fun c kv => c.sweepEntry now kv) c).itemsList
      = c.itemsList.filter
          (fun x => es.all (fun kv => !(kv.2.Value.Expired now) || x.id != kv.2.id)) := by
  induction es generalizing c with
  | nil => simp
  | cons a t ih =>
    rw [List.foldl_cons, ih]
    unfold cache.sweepEntry
    split
    · rename_i hexp
      show (list.Remove c.itemsList a.2).filter _ = _
      unfold list.Remove
      rw [List.filter_filter]
      apply List.filter_congr
      intro x _
      simp only [List.all_cons, hexp, Bool.not_true, Bool.false_or]
      exact Bool.and_comm _ _
    · rename_i hexp
      apply List.filter_congr
      intro x _
      simp only [List.all_cons, hexp, Bool.not_false, Bool.true_or, Bool.true_and]

theorem sweepFold_frame {α : Type} (now : Int) (es : List (String × Element α))
    (c : cache α) :
    (es.foldl (fun c kv => c.sweepEntry now kv) c).nextId = c.nextId ∧
    (es.foldl (fun c kv => c.sweepEntry now kv) c).maxSize = c.maxSize ∧
    (es.foldl (fun c kv => c.sweepEntry now kv) c).defaultExpiration = c.defaultExpiration := by
  induction es generalizing c with
  | nil => exact ⟨rfl, rfl, rfl⟩
  | cons a t ih =>
    rw [List.foldl_cons]
    have h1 := ih (c.sweepEntry now a)
    have h2 : (c.sweepEntry now a).nextId = c.nextId ∧
        (c.sweepEntry now a).maxSize = c.maxSize ∧
        (c.sweepEntry now a).defaultExpiration = c.defaultExpiration := by
      unfold cache.sweepEntry
      split <;> exact ⟨rfl, rfl, rfl⟩
    exact ⟨h1.1.trans h2.1, h1.2.1.trans h2.2.1, h1.2.2.trans h2.2.2⟩

/-- The sweep of a state that has the shape keeps, in the index and in the list, exactly
the entries that are not expired at `now`, in their order. -/
theorem sweep_of_shape {α : Type} (c : cache α) (hs : Shape c) (now : Int) :
    (c.DeleteAllExpiredItems now).itemsMap
      = c.itemsMap.filter (fun kv => !(kv.2.Value.Expired now)) ∧
    (c.DeleteAllExpiredItems now).itemsList
      = c.itemsList.filter (fun e => !(e.Value.Expired now)) := by
  unfold cache.DeleteAllExpiredItems
  rw [sweepFold_map, sweepFold_list]
  constructor
  · apply List.filter_congr
    intro x hx
    cases hexp : x.2.Value.Expired now
    · rw [Bool.not_false, List.all_eq_true]
      intro kv hkv
      cases hk : kv.2.Value.Expired now
      · simp
      · simp only [Bool.not_true, Bool.false_or, bne_iff_ne, ne_eq]
        intro heq
        have := eq_of_key_eq c.itemsMap hs.keysNodup kv x hkv hx heq
        rw [this, hk] at hexp
        cases hexp
    · rw [Bool.not_true, List.all_eq_false]
      exact ⟨x, hx, by simp [hexp]⟩
  · apply List.filter_congr
    intro x hx
    cases hexp : x.Value.Expired now
    · rw [Bool.not_false, List.all_eq_true]
      intro kv hkv
      cases hk : kv.2.Value.Expired now
      · simp
      · simp only [Bool.not_true, Bool.false_or, bne_iff_ne, ne_eq]
        intro heq
        have := hs.agree kv hkv x hx heq
        rw [this, hk] at hexp
        cases hexp
    · rw [Bool.not_true, List.all_eq_false]
      obtain ⟨kv, hkv, hkx⟩ := hs.linked x hx
      exact ⟨kv, hkv, by simp [hkx, hexp]⟩

/-- C17.  The sweep removes exactly the due entries: in every state reachable from an
empty cache (of any capacity) and for every clock reading `now`,
`DeleteAllExpiredItems` leaves in the index and in the recency list exactly the entries
whose expiration is not strictly before `now` (an expiration equal to `now` stays), each
with its value and its expiration, in their former order; nothing else of the state
changes. -/
theorem sweep_removes_exactly_due {α : Type} (maxSize d : Int) (ops : List (Op α))
    (c : cache α) (hrun : run (NewCache α maxSize d) ops = some c) (now : Int) :
    (c.DeleteAllExpiredItems now).itemsMap
      = c.itemsMap.filter (fun kv => decide (¬ kv.2.Value.Expiration < now)) ∧
    (c.DeleteAllExpiredItems now).itemsList
      = c.itemsList.filter (fun e => decide (¬ e.Value.Expiration < now)) ∧
    (c.DeleteAllExpiredItems now).maxSize = c.maxSize ∧
    (c.DeleteAllExpiredItems now).defaultExpiration = c.defaultExpiration := by
  have hs : Shape c := run_shape ops _ c (NewCache_shape α maxSize d) hrun
  obtain ⟨h1, h2⟩ := sweep_of_shape c hs now
  have hf := sweepFold_frame now c.itemsMap c
  have hE : ∀ i : item α, (!(i.Expired now)) = decide (¬ i.Expiration < now) := by
    intro i
    unfold item.Expired
    by_cases h : i.Expiration < now <;> simp [h]
  refine ⟨?_, ?_, hf.2.1, hf.2.2⟩
  · rw [h1]
    exact List.filter_congr (fun x _ => hE x.2.Value)
  · rw [h2]
    exact List.filter_congr (fun x _ => hE x.Value)

/-- Instance of `sweep_removes_exactly_due`: capacity 3 with entries expiring at 5000, 6000
and 7000, swept at the clock reading 6000. -/
theorem sweep_removes_exactly_due_witness :
    ∃ c : cache Nat,
      run (NewCache Nat 3 Second)
        [.set "a" (some 1) 4000 1000, .set "b" (some 2) 5000 1000,
          .set "c" (some 3) 6000 1000] = some c ∧
      (c.DeleteAllExpiredItems 6000).itemsMap
        = c.itemsMap.filter (fun kv => decide (¬ kv.2.Value.Expiration < 6000)) ∧
      (c.DeleteAllExpiredItems 6000).itemsList
        = c.itemsList.filter (fun e => decide (¬ e.Value.Expiration < 6000)) ∧
      (c.DeleteAllExpiredItems 6000).maxSize = c.maxSize ∧
      (c.DeleteAllExpiredItems 6000).defaultExpiration = c.defaultExpiration :=
  ⟨_, rfl,
    sweep_removes_exactly_due 3 Second
      [.set "a" (some 1) 4000 1000, .set "b" (some 2) 5000 1000, .set "c" (some 3) 6000 1000]
      _ rfl 6000⟩

/-! ## Get on a hit -/

theorem perm_cons_Remove {α : Type} (l : List (Element α))
    (hn : (l.map (fun e => e.id)).Nodup) (e : Element α) (he : e ∈ l) :
    (e :: list.Remove l e).Perm l := by
  induction l with
  | nil => simp at he
  | cons a t ih =>
    have hn0 := hn
    rw [List.map_cons, List.nodup_cons] at hn
    by_cases ha : a.id = e.id
    · have hae : a = e := eq_of_id_eq (a :: t) hn0 a e (List.mem_cons_self _ _) he ha
      subst hae
      have h1 : list.Remove (a :: t) a = t := by
        have h2 : list.Remove (a :: t) a = list.Remove t a := by
          simp [list.Remove]
        rw [h2]
        apply list.Remove_of_not_mem
        intro y hy hya
        exact hn.1 (List.mem_map.mpr ⟨y, hy, hya⟩)
      rw [h1]
    · have h1 : list.Remove (a :: t) e = a :: list.Remove t e := by
        simp [list.Remove, ha]
      rw [h1]
      rcases List.mem_cons.mp he with h2 | h2
      · exact absurd (by rw [h2]) ha
      · exact (List.Perm.swap a e _).trans ((ih hn.2 h2).cons a)

theorem MoveToFront_of_mem {α : Type} (l : List (Element α))
    (hn : (l.map (fun e => e.id)).Nodup) (e : Element α) (he : e ∈ l) :
    list.MoveToFront l e = e :: list.Remove l e := by
  by_cases hh : l.head?.map (fun x => x.id) = some e.id
  · cases l with
    | nil => simp at he
    | cons a t =>
      simp only [List.head?_cons, Option.map_some', Option.some.injEq] at hh
      have hae : a = e := eq_of_id_eq (a :: t) hn a e (List.mem_cons_self _ _) he hh
      subst hae
      rw [List.map_cons, List.nodup_cons] at hn
      have h1 : list.Remove (a :: t) a = t := by
        have h2 : list.Remove (a :: t) a = list.Remove t a := by
          simp [list.Remove]
        rw [h2]
        apply list.Remove_of_not_mem
        intro y hy hya
        exact hn.1 (List.mem_map.mpr ⟨y, hy, hya⟩)
      rw [h1]
      simp [list.MoveToFront]
  · exact MoveToFront_of_not_head l e ⟨e, he, rfl⟩ hh

/-- C16.  Get hit promotes only: in every state whose recency list links no element twice,
for a key whose index element `e` is linked in the list, `Get` returns `(e.Value.Object,
true)`; the new list is `e` followed by the other elements in their former order, it has
the same elements as before, and nothing else of the state (the index, the value and the
expiration of every entry) changes. -/
theorem get_hit_promotes_only {α : Type} (c : cache α) (key : String) (e : Element α)
    (hn : (c.itemsList.map (fun x => x.id)).Nodup)
    (hlk : c.itemsMap.lookup key = some e) (he : e ∈ c.itemsList) :
    c.Get key = some ({ c with itemsList := e :: c.itemsList.filter (fun x => x.id != e.id) },
      (e.Value.Object, true)) ∧
    (c.itemsList.filter (fun x => x.id != e.id)).Sublist c.itemsList ∧
    (e :: c.itemsList.filter (fun x => x.id != e.id)).Perm c.itemsList := by
  refine ⟨?_, List.filter_sublist _, perm_cons_Remove c.itemsList hn e he⟩
  rw [Get_of_mem c hn key e hlk he, MoveToFront_of_mem c.itemsList hn e he]
  rfl

/-- Instance of `get_hit_promotes_only`: capacity 3 with `a`, `b`, `c` stored, `Get("a")`
moves the oldest element to the front. -/
theorem get_hit_promotes_only_witness :
    ∃ (c c2 : cache Nat) (e : Element Nat),
      run (NewCache Nat 3 Second)
        [.set "a" (some 1) 4000 1000, .set "b" (some 2) 5000 1000,
          .set "c" (some 3) 6000 1000] = some c ∧
      (c.itemsList.map (fun x => x.id)).Nodup ∧
      c.itemsMap.lookup "a" = some e ∧ e ∈ c.itemsList ∧
      c.Get "a" = some (c2, (some 1, true)) ∧
      c.itemsList.map (fun x => x.id) = [2, 1, 0] ∧
      c2.itemsList.map (fun x => x.id) = [0, 2, 1] ∧ c2.itemsMap = c.itemsMap :=
  ⟨{ itemsMap := [("c", ⟨2, ⟨some 3, 7000⟩⟩), ("b", ⟨1, ⟨some 2, 6000⟩⟩),
        ("a", ⟨0, ⟨some 1, 5000⟩⟩)]
     itemsList := [⟨2, ⟨some 3, 7000⟩⟩, ⟨1, ⟨some 2, 6000⟩⟩, ⟨0, ⟨some 1, 5000⟩⟩]
     defaultExpiration := 3600 * Second
     maxSize := 3
     janitor := { interval := Second }
     nextId := 3 },
   { itemsMap := [("c", ⟨2, ⟨some 3, 7000⟩⟩), ("b", ⟨1, ⟨some 2, 6000⟩⟩),
        ("a", ⟨0, ⟨some 1, 5000⟩⟩)]
     itemsList := [⟨0, ⟨some 1, 5000⟩⟩, ⟨2, ⟨some 3, 7000⟩⟩, ⟨1, ⟨some 2, 6000⟩⟩]
     defaultExpiration := 3600 * Second
     maxSize := 3
     janitor := { interval := Second }
     nextId := 3 },
   ⟨0, ⟨some 1, 5000⟩⟩, rfl, by decide, rfl, by decide,
   (get_hit_promotes_only
      { itemsMap := [("c", ⟨2, ⟨some 3, 7000⟩⟩), ("b", ⟨1, ⟨some 2, 6000⟩⟩),
          ("a", ⟨0, ⟨some 1, 5000⟩⟩)]
        itemsList := [⟨2, ⟨some 3, 7000⟩⟩, ⟨1, ⟨some 2, 6000⟩⟩, ⟨0, ⟨some 1, 5000⟩⟩]
        defaultExpiration := 3600 * Second
        maxSize := 3
        janitor := { interval := Second }
        nextId := 3 }
      "a" ⟨0, ⟨some 1, 5000⟩⟩ (by decide) rfl (by decide)).1,
   rfl, rfl, rfl⟩

/-! ## Two Get calls under the shared lock -/

/-- The method `cache.Get` is its first statements followed by its remaining ones. -/
theorem Get_eq_promote_read {α : Type} (c : cache α) (key : String) :
    c.Get key = ((c.GetPromote key).1.GetRead (c.GetPromote key).2).map
      (fun r => ((c.GetPromote key).1, r)) := by
  unfold cache.Get cache.GetPromote cache.GetRead
  cases h : c.itemsMap.lookup key with
  | none => simp
  | some elem =>
    simp only [if_true]
    cases h2 : list.Front (list.MoveToFront c.itemsList elem) with
    | none => simp
    | some f => simp

/-- C15, the code on a failing schedule.  Capacity 2 with `a` (value 1) and `b` (value 2)
stored.  `Get` takes only the read lock, which two callers hold together, so the
statements of `Get("a")` and `Get("b")` may run in the order: promotion of `a`, promotion
of `b`, read of the front for `Get("a")`.  Then `Get("a")` answers `(2, true)`, the value
of `b`, although `Get("a")` run alone answers `(1, true)`. -/
theorem shared_lock_get_reads_other_key :
    (run (NewCache Nat 2 Second)
        [.set "a" (some 1) (10 * Second) 1000, .set "b" (some 2) (10 * Second) 2000]).bind
      (fun c => ((c.GetPromote "a").1.GetPromote "b").1.GetRead (c.GetPromote "a").2)
      = some (some 2, true) ∧
    (run (NewCache Nat 2 Second)
        [.set "a" (some 1) (10 * Second) 1000, .set "b" (some 2) (10 * Second) 2000]).bind
      (fun c => (c.Get "a").map (fun r => r.2))
      = some (some 1, true) := by
  decide

end GoLru
